import Mathlib

/-!
# Verification of the changed-files job-matrix generator

Shallow embedding of `neo.py`'s core (`update_matches`, `generate_matrix`)
from the `action-changed-files` repository, together with theorems settling
the specification claims.

Modelling conventions:

* A compiled regular expression (Python `re.compile(pattern, re.M | re.S)`)
  is modelled as a function `Regex : String → Option GroupDict`.  Python's
  `pattern.match(s)` anchors at position 0 and does not require the whole
  string to be consumed; the `Option` result models exactly that call:
  `none` when `match` returns `None`, `some gd` when it returns a match
  object whose `groupdict()` is `gd`.  `groupdict()` lists every named
  group defined by the pattern, pairing a group with `none` (Python `None`)
  when it did not participate in the match.  Concrete `Regex` values used
  in witnesses are faithful hand-translations of concrete Python patterns
  and are documented where they are defined.
* Python `set` objects holding status strings are modelled canonically as
  strictly sorted lists of strings (`statusInsert` keeps them sorted and
  duplicate-free); `set.pop()` is modelled as taking the head of the
  canonical list, and `set.pop()` on an empty set is the `KeyError` case.
* `hdict` is imported by `neo.py` from `common` but is not present in
  `common.py`; it is modelled from the spec (see `canonKey`, `rowLe`).
* The directory walk (`os.walk` + `os.path.relpath`) and `fnmatch.fnmatch`
  are Python standard-library collaborators: the walk result is passed in
  as the list of discovered relative paths, and `fnmatch` as an opaque
  glob-matching function.
-/

namespace Neo

/-- The value of one named capture group in a Python `groupdict()`:
`none` models Python `None` (the group did not participate in the match). -/
abbrev Val := Option String

/-- A Python `match.groupdict()`: named group → captured value. -/
abbrev GroupDict := List (String × Val)

/-- A compiled pattern, modelled by the behaviour of its `.match` method
(anchored at position 0, prefix match): `none` = no match, `some gd` =
match with groupdict `gd`. -/
abbrev Regex := String → Option GroupDict

/-- A match key (`hdict`): canonical association list, strictly sorted by
field name. -/
abbrev Key := List (String × Val)

/-- One matrix row: the fields of a key plus the resolved `reason` field. -/
abbrev Row := List (String × Val)

/-- The accumulating mapping from match key to the set of statuses seen for
that key, canonically represented with keys strictly sorted by `kcmp` and
each status set strictly sorted. -/
abbrev MatchMap := List (Key × List String)

/-- One entry of the GitHub compare-API file list, as consumed by
`generate_matrix` (`e["filename"]`, `e["status"]`). -/
structure ChangedFile where
  filename : String
  status : String
deriving DecidableEq, Repr

/-! ## Comparators

Total comparators used for the canonical representations, built from
character code points so that they evaluate by kernel reduction. -/

/-- Comparator on characters through their code points. -/
def ccmp (a b : Char) : Ordering :=
  if a.toNat < b.toNat then .lt else if b.toNat < a.toNat then .gt else .eq

/-- Lexicographic comparator on character lists. -/
def slcmp : List Char → List Char → Ordering
  | [], [] => .eq
  | [], _ :: _ => .lt
  | _ :: _, [] => .gt
  | a :: as, b :: bs => (ccmp a b).then (slcmp as bs)

/-- Comparator on strings. -/
def scmp (a b : String) : Ordering := slcmp a.data b.data

/-- Comparator on optional captured values; `none` (Python `None`) sorts
first. -/
def vcmp : Val → Val → Ordering
  | none, none => .eq
  | none, some _ => .lt
  | some _, none => .gt
  | some a, some b => scmp a b

/-- Comparator on (field name, value) pairs: name first, then value. -/
def fcmp (a b : String × Val) : Ordering :=
  (scmp a.1 b.1).then (vcmp a.2 b.2)

/-- Lexicographic comparator on field lists (keys and rows). -/
def kcmp : List (String × Val) → List (String × Val) → Ordering
  | [], [] => .eq
  | [], _ :: _ => .lt
  | _ :: _, [] => .gt
  | a :: as, b :: bs => (fcmp a b).then (kcmp as bs)


/-! ## Well-formedness of the canonical structures -/

/-- Strict sortedness of a canonical status set. -/
def SortedStatuses (ss : List String) : Prop :=
  List.Chain' (fun a b => scmp a b = .lt) ss

/-- Strict sortedness of the canonical map by key. -/
def SortedMap (m : MatchMap) : Prop :=
  List.Chain' (fun a b => kcmp a.1 b.1 = .lt) m

/-- Well-formedness of the canonical map: sorted keys, each status set
sorted and non-empty. -/
def GoodMap (m : MatchMap) : Prop :=
  SortedMap m ∧ ∀ e ∈ m, SortedStatuses e.2 ∧ e.2 ≠ []


/-! ## Canonical sets, dictionaries and maps

Python `set[str]` values are represented as strictly sorted duplicate-free
lists; Python dictionaries keyed by strings (`hdict`, `groupdict()`) as
association lists.  `hdict` itself is missing from the sources (imported
from `common`, not defined in `common.py`), so its comparison behaviour is
modelled from the spec; dictionary *equality* is plain Python `dict`
equality (same key/value sets, order irrelevant), captured by keeping keys
in canonical sorted form. -/

/-- Add a status string to a canonical status set (`set.add`). -/
def statusInsert (s : String) : List String → List String
  | [] => [s]
  | t :: ts =>
    match scmp s t with
    | .lt => s :: t :: ts
    | .eq => t :: ts
    | .gt => t :: statusInsert s ts

/-- Modelled from the spec: `hdict` (imported from `common` but absent from
`common.py`) is a hashable dict whose equality is structural over the field
set with insertion order irrelevant (spec §3, §9); a dict is canonicalized
as its association list sorted by field name, later assignments to the same
name overwriting earlier ones (Python dict construction semantics). -/
def fieldInsert (f : String × Val) : Key → Key
  | [] => [f]
  | g :: gs =>
    match scmp f.1 g.1 with
    | .lt => f :: g :: gs
    | .eq => f :: gs
    | .gt => g :: fieldInsert f gs

/-- Canonical form of a Python dict given as a (name, value) pair list. -/
def canonKey (gd : List (String × Val)) : Key :=
  gd.foldl (fun k f => fieldInsert f k) []

/-- Python dict item assignment `d[name] = v`: overwrite in place when the
name is present, otherwise append at insertion-order end. -/
def dictAssign (d : Row) (name : String) (v : Val) : Row :=
  if d.any (fun g => g.1 == name) then
    d.map (fun g => if g.1 == name then (name, v) else g)
  else d ++ [(name, v)]

/-- `key in old_matches.keys()` / dict lookup on the canonical map. -/
def mapFind? (k : Key) : MatchMap → Option (List String)
  | [] => none
  | (k', ss) :: rest =>
    match kcmp k k' with
    | .eq => some ss
    | _ => mapFind? k rest

/-- `old_matches.pop(key)`'s removal effect on the canonical map. -/
def mapRemove (k : Key) : MatchMap → MatchMap
  | [] => []
  | (k', ss) :: rest =>
    match kcmp k k' with
    | .eq => rest
    | _ => (k', ss) :: mapRemove k rest

/-- `matches[key].add(status)` on the canonical map (`matches` is a
`defaultdict(set)`: a missing key starts from the empty set). -/
def mapInsert (k : Key) (s : String) : MatchMap → MatchMap
  | [] => [(k, [s])]
  | (k', ss) :: rest =>
    match kcmp k k' with
    | .lt => (k, [s]) :: (k', ss) :: rest
    | .eq => (k', statusInsert s ss) :: rest
    | .gt => (k', ss) :: mapInsert k s rest

/-! ## The embedded program

Faithful translation of `update_matches` and `generate_matrix` from
`neo.py`.  Python exceptions (`ValueError` for the reserved group name,
`KeyError` for `set.pop` on an empty set) are modelled with `Except`. -/

/-- The `ValueError` message raised for a group named `reason`
(`neo.py` line 33). -/
def reservedKeyError : String := "reason is a reserved name for the job matrix"

/-- The `KeyError` raised by Python's `set.pop()` on an empty set. -/
def emptySetPopError : String := "pop from an empty set"

/-- `if key in old_matches: status = old_matches.pop(key).pop()` followed by
`matches[key].add(status)` (`neo.py` lines 37-39): when the key is present
in `old_matches`, the incoming status is replaced by one element popped from
the key's old status set and the key is removed from `old_matches`. -/
def popAndAdd (key : Key) (status : String) (found old_matches : MatchMap) :
    Except String (MatchMap × MatchMap) :=
  match mapFind? key old_matches with
  | some [] => .error emptySetPopError
  | some (s :: _) => .ok (mapInsert key s found, mapRemove key old_matches)
  | none => .ok (mapInsert key status found, old_matches)

/-- The body of the `for (filename, status) in files` loop of
`update_matches` (`neo.py` lines 28-39), acting on the pair
(accumulated `matches`, current `old_matches`). -/
def update_matches_step (include_regex : Regex) (acc : MatchMap × MatchMap)
    (f : String × String) : Except String (MatchMap × MatchMap) :=
  match include_regex f.1 with
  | none => .ok acc
  | some gd =>
    if !gd.isEmpty then
      if gd.any (fun g => g.1 == "reason") then
        .error reservedKeyError
      else
        popAndAdd (canonKey gd) f.2 acc.1 acc.2
    else
      popAndAdd (canonKey [("path", some f.1)]) f.2 acc.1 acc.2

/-- `update_matches(files, include_regex, old_matches)` (`neo.py` lines
16-41).  The Python function returns `matches`; the model additionally
returns the final state of the (mutated) `old_matches` argument, so that
statements about the shared module-level default argument can be made. -/
def update_matches (files : List (String × String)) (include_regex : Regex)
    (old_matches : MatchMap) : Except String (MatchMap × MatchMap) :=
  files.foldlM (update_matches_step include_regex) ([], old_matches)

/-- `statuses.pop() if len(statuses) == 1 else "updated"` (`neo.py` line
96) on a canonical status set. -/
def reasonOf : List String → String
  | [s] => s
  | _ => "updated"

/-- `groups["reason"] = ...` (`neo.py` line 96): one resolved matrix row. -/
def rowOf (groups : Key) (statuses : List String) : Row :=
  dictAssign groups "reason" (some (reasonOf statuses))

/-- Modelled from the spec: the row ordering used by `sorted(status_matrix)`
lives in the missing `hdict` class; per spec §4.5 rows are ordered
lexicographically over their sorted (field name, value) pairs. -/
def rowLe (a b : Row) : Bool :=
  match kcmp (canonKey a) (canonKey b) with
  | .gt => false
  | _ => true

/-- Sorted insertion of one row. -/
def insertRow (r : Row) : List Row → List Row
  | [] => [r]
  | x :: xs => if rowLe r x then r :: x :: xs else x :: insertRow r xs

/-- `sorted(status_matrix)` (`neo.py` line 101). -/
def sortRows (rows : List Row) : List Row := rows.foldr insertRow []

/-- `matched_default_patterns` (`neo.py` lines 73-77): the default glob
patterns matched by at least one changed file (`fnmatch.filter` yields a
non-empty list exactly when some changed filename matches the pattern;
`fnmatchFn` models `fnmatch.fnmatch` on one filename). -/
def matched_default_patterns (changed_files : List (String × String))
    (default_patterns : List String)
    (fnmatchFn : String → String → Bool) : List String :=
  default_patterns.filter
    (fun pattern => changed_files.any (fun c => fnmatchFn c.1 pattern))

/-- The default-expansion guard
`(not matches and defaults) or matched_default_patterns`
(`neo.py` line 84). -/
def expansion_triggered (found : MatchMap) (defaults : Bool)
    (mdp : List String) : Bool :=
  (found.isEmpty && defaults) || !mdp.isEmpty

/-- `generate_matrix` (`neo.py` lines 44-101) up to and including the
conditional default expansion: the final merged mapping from match key to
status set, before reason resolution and sorting.  `walkFiles` stands for
the `os.walk`-discovered regular files under `default_dir`, already made
relative (`os.path.relpath`); `fnmatchFn` models `fnmatch.fnmatch`.  The
module-level default `old_matches=defaultdict(set)` of `update_matches` is
empty at every call (no code path ever adds to it — see
`update_matches_default_state`), so the calls pass the empty map. -/
def merged_matches (files : List ChangedFile) (include_regex : Regex)
    (defaults : Bool) (default_patterns : List String)
    (walkFiles : List String) (fnmatchFn : String → String → Bool) :
    Except String MatchMap :=
  let changed_files := files.map (fun e => (e.filename, e.status))
  let mdp := matched_default_patterns changed_files default_patterns fnmatchFn
  match update_matches changed_files include_regex [] with
  | .error e => .error e
  | .ok (found, _) =>
    if expansion_triggered found defaults mdp then
      let default_files := walkFiles.map (fun f => (f, "default"))
      match update_matches default_files include_regex found with
      | .error e => .error e
      | .ok (m, _) => .ok m
    else .ok found

/-- `generate_matrix` (`neo.py` lines 44-101): reason resolution over the
merged mapping (`neo.py` lines 95-98) followed by `sorted(...)`. -/
def generate_matrix (files : List ChangedFile) (include_regex : Regex)
    (defaults : Bool) (default_patterns : List String)
    (walkFiles : List String) (fnmatchFn : String → String → Bool) :
    Except String (List Row) :=
  (merged_matches files include_regex defaults default_patterns walkFiles
      fnmatchFn).map
    (fun found => sortRows (found.map (fun e => rowOf e.1 e.2)))

/-! ## Analysis of one loop iteration

`keyOfMatch`, `file_raises` and `stepF` are proof-side characterizations
of the loop body of `update_matches`, read off the same source lines. -/

/-- The key computed for one matching file (`neo.py` lines 31-36). -/
def keyOfMatch (filename : String) (gd : GroupDict) : Key :=
  if !gd.isEmpty then canonKey gd else canonKey [("path", some filename)]

/-- Whether processing this file raises the reserved-name `ValueError`
(`neo.py` lines 31-33): the file matches, the pattern has named groups,
and one of them is called `reason`. -/
def file_raises (r : Regex) (f : String × String) : Bool :=
  match r f.1 with
  | none => false
  | some gd => !gd.isEmpty && gd.any (fun g => g.1 == "reason")

/-- The effect of one loop iteration on `matches` when `old_matches` is
empty and the file does not raise: the pure accumulation
`matches[key].add(status)`. -/
def stepF (r : Regex) (acc : MatchMap) (f : String × String) : MatchMap :=
  match r f.1 with
  | none => acc
  | some gd => mapInsert (keyOfMatch f.1 gd) f.2 acc


/-! ## Concrete pattern models

Hand-translations of concrete Python regular expressions used to exercise
the generator.  Each models `compiled.match` (anchored at position 0,
prefix semantics, `re.M | re.S` flags) of the stated pattern, returning
the `groupdict()` of the match. -/

/-- Python `\w` on the ASCII inputs used here: letters, digits, underscore. -/
def isWordChar (c : Char) : Bool := c.isAlphanum || c == '_'

/-- Literal-prefix test on character lists, returning the rest on success. -/
def stripLit : List Char → List Char → Option (List Char)
  | [], cs => some cs
  | _, [] => none
  | p :: ps, c :: cs => if p == c then stripLit ps cs else none

/-- Greedy `\w+` at the start of the input: the captured word and the rest;
`none` when the first character is not a word character. -/
def wordGroup (cs : List Char) : Option (String × List Char) :=
  let w := cs.takeWhile isWordChar
  if w.isEmpty then none else some (String.mk w, cs.dropWhile isWordChar)

/-- The pattern `clusters/.*` (no named groups): matches exactly the
strings starting with `clusters/`, empty groupdict. -/
def clustersRegex : Regex := fun s =>
  match stripLit "clusters/".data s.data with
  | some _ => some []
  | none => none

/-- The pattern `(?P<environment>\w+)/.*`: one or more word characters,
captured as `environment`, followed by `/`. -/
def wordSlashRegex : Regex := fun s =>
  match wordGroup s.data with
  | none => none
  | some (env, rest) =>
    match rest with
    | '/' :: _ => some [("environment", some env)]
    | _ => none

/-- The pattern `(?P<reason>.*)`: matches every string (with `re.S`,
`.*` spans the whole input), capturing it as the reserved group `reason`. -/
def reasonRegex : Regex := fun s => some [("reason", some s)]

/-- The pattern `(?P<a>x)|(?P<b>y)`: on a string starting with `x` only
group `a` participates and `b` is `None`; on a string starting with `y`
only `b` participates. -/
def abRegex : Regex := fun s =>
  match stripLit "x".data s.data with
  | some _ => some [("a", some "x"), ("b", none)]
  | none =>
    match stripLit "y".data s.data with
    | some _ => some [("a", none), ("b", some "y")]
    | none => none

/-- The non-`reason` fields of a produced row. -/
def nonReasonFields (row : Row) : Row :=
  row.filter (fun g => !(g.1 == "reason"))

theorem ccmp_eq_iff {a b : Char} : ccmp a b = .eq ↔ a = b := by
  unfold ccmp
  by_cases h1 : a.toNat < b.toNat
  · simp only [if_pos h1]
    constructor
    · intro hc; cases hc
    · intro hc; subst hc; exact absurd h1 (lt_irrefl _)
  · by_cases h2 : b.toNat < a.toNat
    · simp only [if_neg h1, if_pos h2]
      constructor
      · intro hc; cases hc
      · intro hc; subst hc; exact absurd h2 (lt_irrefl _)
    · simp only [if_neg h1, if_neg h2, true_iff]
      exact Char.eq_of_val_eq
        (UInt32.ext (Nat.le_antisymm (Nat.le_of_not_lt h2) (Nat.le_of_not_lt h1)))

theorem ccmp_lt_iff {a b : Char} : ccmp a b = .lt ↔ a.toNat < b.toNat := by
  unfold ccmp
  by_cases h1 : a.toNat < b.toNat
  · simp [h1]
  · by_cases h2 : b.toNat < a.toNat <;> simp [h1, h2]

theorem ccmp_swap (a b : Char) : ccmp a b = (ccmp b a).swap := by
  unfold ccmp
  by_cases h1 : a.toNat < b.toNat
  · rw [if_pos h1, if_neg (Nat.lt_asymm h1), if_pos h1]
    rfl
  · by_cases h2 : b.toNat < a.toNat
    · rw [if_neg h1, if_pos h2, if_pos h2]
      rfl
    · rw [if_neg h1, if_neg h2, if_neg h2, if_neg h1]
      rfl

theorem ccmp_lt_trans {a b c : Char} (h1 : ccmp a b = .lt)
    (h2 : ccmp b c = .lt) : ccmp a c = .lt :=
  ccmp_lt_iff.mpr (Nat.lt_trans (ccmp_lt_iff.mp h1) (ccmp_lt_iff.mp h2))

theorem slcmp_eq_iff {a b : List Char} : slcmp a b = .eq ↔ a = b := by
  induction a generalizing b with
  | nil => cases b <;> simp [slcmp]
  | cons x xs ih =>
    cases b with
    | nil => simp [slcmp]
    | cons y ys =>
      simp only [slcmp]
      constructor
      · intro h
        rcases o : ccmp x y with _ | _ | _ <;> rw [o] at h <;>
          simp [Ordering.then] at h
        rw [ccmp_eq_iff.mp o, ih.mp h]
      · intro h
        injection h with h1 h2
        rw [ccmp_eq_iff.mpr h1, ih.mpr h2]
        rfl

theorem scmp_eq_iff {a b : String} : scmp a b = .eq ↔ a = b := by
  unfold scmp
  rw [slcmp_eq_iff]
  constructor
  · exact String.ext
  · intro h; rw [h]

theorem scmp_self (a : String) : scmp a a = .eq := scmp_eq_iff.mpr rfl

theorem vcmp_eq_iff {a b : Val} : vcmp a b = .eq ↔ a = b := by
  cases a <;> cases b <;> simp [vcmp]
  exact scmp_eq_iff

theorem fcmp_eq_iff {a b : String × Val} : fcmp a b = .eq ↔ a = b := by
  unfold fcmp
  constructor
  · intro h
    rcases o : scmp a.1 b.1 with _ | _ | _ <;> rw [o] at h <;>
      simp [Ordering.then] at h
    exact Prod.ext (scmp_eq_iff.mp o) (vcmp_eq_iff.mp h)
  · intro h
    subst h
    rw [scmp_self, vcmp_eq_iff.mpr rfl]
    rfl

theorem kcmp_eq_iff {a b : List (String × Val)} : kcmp a b = .eq ↔ a = b := by
  induction a generalizing b with
  | nil => cases b <;> simp [kcmp]
  | cons x xs ih =>
    cases b with
    | nil => simp [kcmp]
    | cons y ys =>
      simp only [kcmp]
      constructor
      · intro h
        rcases o : fcmp x y with _ | _ | _ <;> rw [o] at h <;>
          simp [Ordering.then] at h
        rw [fcmp_eq_iff.mp o, ih.mp h]
      · intro h
        injection h with h1 h2
        rw [fcmp_eq_iff.mpr h1, ih.mpr h2]
        rfl

theorem kcmp_self (a : List (String × Val)) : kcmp a a = .eq := kcmp_eq_iff.mpr rfl

theorem then_swap (o p : Ordering) : (o.then p).swap = o.swap.then p.swap := by
  cases o <;> cases p <;> rfl

theorem slcmp_swap (a b : List Char) : slcmp a b = (slcmp b a).swap := by
  induction a generalizing b with
  | nil => cases b <;> rfl
  | cons x xs ih =>
    cases b with
    | nil => rfl
    | cons y ys =>
      simp only [slcmp]
      rw [then_swap, ← ccmp_swap, ← ih]

theorem scmp_swap (a b : String) : scmp a b = (scmp b a).swap := slcmp_swap a.data b.data

theorem vcmp_swap (a b : Val) : vcmp a b = (vcmp b a).swap := by
  cases a <;> cases b <;> simp [vcmp, Ordering.swap]
  exact scmp_swap _ _

theorem fcmp_swap (a b : String × Val) : fcmp a b = (fcmp b a).swap := by
  unfold fcmp
  rw [then_swap, ← scmp_swap, ← vcmp_swap]

theorem kcmp_swap (a b : List (String × Val)) : kcmp a b = (kcmp b a).swap := by
  induction a generalizing b with
  | nil => cases b <;> rfl
  | cons x xs ih =>
    cases b with
    | nil => rfl
    | cons y ys =>
      simp only [kcmp]
      rw [then_swap, ← fcmp_swap, ← ih]

theorem then_lt_iff {o p : Ordering} :
    o.then p = .lt ↔ o = .lt ∨ (o = .eq ∧ p = .lt) := by
  cases o <;> simp [Ordering.then]

theorem slcmp_lt_trans {a b c : List Char} (h1 : slcmp a b = .lt)
    (h2 : slcmp b c = .lt) : slcmp a c = .lt := by
  induction a generalizing b c with
  | nil =>
    cases b with
    | nil => exact h2
    | cons y ys =>
      cases c with
      | nil => simp [slcmp] at h2
      | cons z zs => rfl
  | cons x xs ih =>
    cases b with
    | nil => simp [slcmp] at h1
    | cons y ys =>
      cases c with
      | nil => simp [slcmp] at h2
      | cons z zs =>
        simp only [slcmp, then_lt_iff, ccmp_eq_iff] at *
        rcases h1 with h1 | ⟨e1, t1⟩
        · rcases h2 with h2 | ⟨e2, t2⟩
          · exact Or.inl (ccmp_lt_trans h1 h2)
          · exact Or.inl (e2 ▸ h1)
        · rcases h2 with h2 | ⟨e2, t2⟩
          · exact Or.inl (e1 ▸ h2)
          · exact Or.inr ⟨e1.trans e2, ih t1 t2⟩

theorem scmp_lt_trans {a b c : String} (h1 : scmp a b = .lt)
    (h2 : scmp b c = .lt) : scmp a c = .lt := slcmp_lt_trans h1 h2

theorem vcmp_lt_trans {a b c : Val} (h1 : vcmp a b = .lt)
    (h2 : vcmp b c = .lt) : vcmp a c = .lt := by
  cases a <;> cases b <;> cases c <;> simp_all [vcmp]
  exact scmp_lt_trans h1 h2

theorem fcmp_lt_iff {a b : String × Val} :
    fcmp a b = .lt ↔ scmp a.1 b.1 = .lt ∨ (a.1 = b.1 ∧ vcmp a.2 b.2 = .lt) := by
  unfold fcmp
  rw [then_lt_iff, scmp_eq_iff]

theorem fcmp_lt_trans {a b c : String × Val} (h1 : fcmp a b = .lt)
    (h2 : fcmp b c = .lt) : fcmp a c = .lt := by
  rw [fcmp_lt_iff] at *
  rcases h1 with h1 | ⟨e1, v1⟩
  · rcases h2 with h2 | ⟨e2, v2⟩
    · exact Or.inl (scmp_lt_trans h1 h2)
    · exact Or.inl (e2 ▸ h1)
  · rcases h2 with h2 | ⟨e2, v2⟩
    · exact Or.inl (e1 ▸ h2)
    · exact Or.inr ⟨e1.trans e2, vcmp_lt_trans v1 v2⟩

theorem kcmp_lt_trans {a b c : List (String × Val)} (h1 : kcmp a b = .lt)
    (h2 : kcmp b c = .lt) : kcmp a c = .lt := by
  induction a generalizing b c with
  | nil =>
    cases b with
    | nil => exact h2
    | cons y ys =>
      cases c with
      | nil => simp [kcmp] at h2
      | cons z zs => rfl
  | cons x xs ih =>
    cases b with
    | nil => simp [kcmp] at h1
    | cons y ys =>
      cases c with
      | nil => simp [kcmp] at h2
      | cons z zs =>
        simp only [kcmp, then_lt_iff, fcmp_eq_iff] at *
        rcases h1 with h1 | ⟨e1, t1⟩
        · rcases h2 with h2 | ⟨e2, t2⟩
          · exact Or.inl (fcmp_lt_trans h1 h2)
          · exact Or.inl (e2 ▸ h1)
        · rcases h2 with h2 | ⟨e2, t2⟩
          · exact Or.inl (e1 ▸ h2)
          · exact Or.inr ⟨e1.trans e2, ih t1 t2⟩

theorem swap_eq_gt {o : Ordering} : o.swap = .gt ↔ o = .lt := by
  cases o <;> simp [Ordering.swap]

theorem scmp_gt_iff {a b : String} : scmp a b = .gt ↔ scmp b a = .lt := by
  rw [scmp_swap a b, swap_eq_gt]

theorem kcmp_gt_iff {a b : List (String × Val)} :
    kcmp a b = .gt ↔ kcmp b a = .lt := by
  rw [kcmp_swap a b, swap_eq_gt]

/-! ## Lemmas on `statusInsert` -/

theorem statusInsert_comm_lt {a b : String} (h : scmp a b = .lt)
    (ss : List String) :
    statusInsert a (statusInsert b ss) = statusInsert b (statusInsert a ss) := by
  induction ss with
  | nil =>
    simp only [statusInsert, h, scmp_gt_iff.mpr h]
  | cons t ts ih =>
    rcases obt : scmp b t with _ | _ | _
    · have hat : scmp a t = .lt := scmp_lt_trans h obt
      simp only [statusInsert, obt, h, hat, scmp_gt_iff.mpr h]
    · have hbt : b = t := scmp_eq_iff.mp obt
      subst hbt
      simp only [statusInsert, obt, h, scmp_gt_iff.mpr h]
    · rcases oat : scmp a t with _ | _ | _
      · simp only [statusInsert, obt, oat, h, scmp_gt_iff.mpr h]
      · simp only [statusInsert, obt, oat]
      · simp only [statusInsert, obt, oat, ih]

theorem statusInsert_comm (a b : String) (ss : List String) :
    statusInsert a (statusInsert b ss) = statusInsert b (statusInsert a ss) := by
  rcases o : scmp a b with _ | _ | _
  · exact statusInsert_comm_lt o ss
  · rw [scmp_eq_iff.mp o]
  · exact (statusInsert_comm_lt (scmp_gt_iff.mp o) ss).symm

theorem statusInsert_ne_nil (s : String) (ss : List String) :
    statusInsert s ss ≠ [] := by
  cases ss with
  | nil => simp [statusInsert]
  | cons t ts =>
    simp only [statusInsert]
    rcases o : scmp s t with _ | _ | _ <;> simp

theorem mem_statusInsert (s : String) (ss : List String) :
    s ∈ statusInsert s ss := by
  induction ss with
  | nil => simp [statusInsert]
  | cons t ts ih =>
    rcases o : scmp s t with _ | _ | _ <;> simp only [statusInsert, o]
    · exact List.mem_cons_self _ _
    · rw [scmp_eq_iff.mp o]
      exact List.mem_cons_self _ _
    · exact List.mem_cons_of_mem _ ih

theorem mem_of_mem_statusInsert {x s : String} {ss : List String}
    (h : x ∈ statusInsert s ss) : x = s ∨ x ∈ ss := by
  induction ss with
  | nil => simpa [statusInsert] using h
  | cons t ts ih =>
    simp only [statusInsert] at h
    rcases o : scmp s t with _ | _ | _ <;> simp only [o] at h
    · rcases List.mem_cons.mp h with h | h
      · exact Or.inl h
      · exact Or.inr h
    · exact Or.inr h
    · rcases List.mem_cons.mp h with h | h
      · exact Or.inr (h ▸ List.mem_cons_self t ts)
      · rcases ih h with h | h
        · exact Or.inl h
        · exact Or.inr (List.mem_cons_of_mem t h)

theorem mem_statusInsert_of_mem {x s : String} {ss : List String}
    (h : x ∈ ss) : x ∈ statusInsert s ss := by
  induction ss with
  | nil => cases h
  | cons t ts ih =>
    rcases o : scmp s t with _ | _ | _ <;> simp only [statusInsert, o]
    · exact List.mem_cons_of_mem _ h
    · exact h
    · rcases List.mem_cons.mp h with h | h
      · subst h
        exact List.mem_cons_self _ _
      · exact List.mem_cons_of_mem _ (ih h)

theorem sorted_head_lt {t : String} {ts : List String}
    (hs : SortedStatuses (t :: ts)) {x : String} (h : x ∈ ts) :
    scmp t x = .lt := by
  induction ts generalizing t with
  | nil => cases h
  | cons u us ih =>
    have htu : scmp t u = .lt := (List.chain'_cons.mp hs).1
    rcases List.mem_cons.mp h with h | h
    · subst h
      exact htu
    · exact scmp_lt_trans htu (ih hs.tail h)

theorem statusInsert_sorted {s : String} {ss : List String}
    (h : SortedStatuses ss) : SortedStatuses (statusInsert s ss) := by
  induction ss with
  | nil => simp [statusInsert, SortedStatuses]
  | cons t ts ih =>
    rcases o : scmp s t with _ | _ | _ <;> simp only [statusInsert, o]
    · exact List.Chain'.cons o h
    · exact h
    · have hrec := ih h.tail
      have hts : scmp t s = .lt := scmp_gt_iff.mp o
      unfold SortedStatuses at *
      rw [List.chain'_cons']
      refine ⟨?_, hrec⟩
      intro y hy
      cases ts with
      | nil =>
        simp only [statusInsert, List.head?, Option.mem_def,
          Option.some.injEq] at hy
        subst hy
        exact hts
      | cons u us =>
        have htu : scmp t u = .lt := (List.chain'_cons.mp h).1
        rcases o2 : scmp s u with _ | _ | _ <;>
          simp only [statusInsert, o2, List.head?, Option.mem_def,
            Option.some.injEq] at hy <;> subst hy
        · exact hts
        · exact htu
        · exact htu

theorem statusInsert_eq_of_mem {s : String} {ss : List String}
    (hs : SortedStatuses ss) (h : s ∈ ss) : statusInsert s ss = ss := by
  induction ss with
  | nil => cases h
  | cons t ts ih =>
    rcases List.mem_cons.mp h with h | h
    · subst h
      simp only [statusInsert, scmp_self]
    · have hlt : scmp t s = .lt := sorted_head_lt hs h
      simp only [statusInsert, scmp_gt_iff.mpr hlt, ih hs.tail h]

/-! ## Lemmas on the canonical map operations -/

theorem mapInsert_comm_lt {k1 k2 : Key} (h : kcmp k1 k2 = .lt)
    (s1 s2 : String) (m : MatchMap) :
    mapInsert k1 s1 (mapInsert k2 s2 m) = mapInsert k2 s2 (mapInsert k1 s1 m) := by
  induction m with
  | nil =>
    simp only [mapInsert, h, kcmp_gt_iff.mpr h]
  | cons e rest ih =>
    obtain ⟨k', ss⟩ := e
    rcases o2 : kcmp k2 k' with _ | _ | _
    · have o1 : kcmp k1 k' = .lt := kcmp_lt_trans h o2
      simp only [mapInsert, o2, o1, h, kcmp_gt_iff.mpr h]
    · have e2 : k2 = k' := kcmp_eq_iff.mp o2
      subst e2
      simp only [mapInsert, kcmp_self, h, kcmp_gt_iff.mpr h]
    · rcases o1 : kcmp k1 k' with _ | _ | _
      · simp only [mapInsert, o2, o1, h, kcmp_gt_iff.mpr h]
      · have e1 : k1 = k' := kcmp_eq_iff.mp o1
        subst e1
        simp only [mapInsert, kcmp_self, o2]
      · simp only [mapInsert, o2, o1]
        rw [ih]

theorem mapInsert_comm_eq (k : Key) (s1 s2 : String) (m : MatchMap) :
    mapInsert k s1 (mapInsert k s2 m) = mapInsert k s2 (mapInsert k s1 m) := by
  have h12 : statusInsert s1 [s2] = statusInsert s2 [s1] :=
    statusInsert_comm s1 s2 []
  induction m with
  | nil =>
    simp only [mapInsert, kcmp_self]
    rw [h12]
  | cons e rest ih =>
    obtain ⟨k', ss⟩ := e
    rcases o : kcmp k k' with _ | _ | _
    · simp only [mapInsert, o, kcmp_self]
      rw [h12]
    · simp only [mapInsert, o]
      rw [statusInsert_comm]
    · simp only [mapInsert, o]
      rw [ih]

theorem mapInsert_comm (k1 k2 : Key) (s1 s2 : String) (m : MatchMap) :
    mapInsert k1 s1 (mapInsert k2 s2 m) = mapInsert k2 s2 (mapInsert k1 s1 m) := by
  rcases o : kcmp k1 k2 with _ | _ | _
  · exact mapInsert_comm_lt o s1 s2 m
  · rw [kcmp_eq_iff.mp o]
    exact mapInsert_comm_eq _ s1 s2 m
  · exact (mapInsert_comm_lt (kcmp_gt_iff.mp o) s2 s1 m).symm

theorem mem_mapInsert {e : Key × List String} {k : Key} {s : String}
    {m : MatchMap} (h : e ∈ mapInsert k s m) :
    e = (k, [s]) ∨ (∃ ss0, (k, ss0) ∈ m ∧ e = (k, statusInsert s ss0)) ∨ e ∈ m := by
  induction m with
  | nil =>
    simp only [mapInsert] at h
    rcases List.mem_cons.mp h with h | h
    · exact Or.inl h
    · cases h
  | cons e0 rest ih =>
    obtain ⟨k0, ss0⟩ := e0
    rcases o : kcmp k k0 with _ | _ | _ <;> simp only [mapInsert, o] at h
    · rcases List.mem_cons.mp h with h | h
      · exact Or.inl h
      · exact Or.inr (Or.inr h)
    · have ek : k = k0 := kcmp_eq_iff.mp o
      subst ek
      rcases List.mem_cons.mp h with h | h
      · refine Or.inr (Or.inl ⟨ss0, ?_, h⟩)
        exact List.mem_cons_self _ _
      · exact Or.inr (Or.inr (List.mem_cons_of_mem _ h))
    · rcases List.mem_cons.mp h with h | h
      · subst h
        exact Or.inr (Or.inr (List.mem_cons_self _ _))
      · rcases ih h with h | ⟨ss1, hm, he⟩ | h
        · exact Or.inl h
        · exact Or.inr (Or.inl ⟨ss1, List.mem_cons_of_mem _ hm, he⟩)
        · exact Or.inr (Or.inr (List.mem_cons_of_mem _ h))

theorem sortedMap_head_lt {e : Key × List String} {m : MatchMap}
    (hs : SortedMap (e :: m)) {x : Key × List String} (h : x ∈ m) :
    kcmp e.1 x.1 = .lt := by
  induction m generalizing e with
  | nil => cases h
  | cons u us ih =>
    have htu : kcmp e.1 u.1 = .lt := (List.chain'_cons.mp hs).1
    rcases List.mem_cons.mp h with h | h
    · subst h
      exact htu
    · exact kcmp_lt_trans htu (ih hs.tail h)

theorem mapInsert_sorted {k : Key} {s : String} {m : MatchMap}
    (h : SortedMap m) : SortedMap (mapInsert k s m) := by
  induction m with
  | nil => simp [mapInsert, SortedMap]
  | cons e0 rest ih =>
    obtain ⟨k0, ss0⟩ := e0
    rcases o : kcmp k k0 with _ | _ | _ <;> simp only [mapInsert, o]
    · exact List.Chain'.cons o h
    · unfold SortedMap at *
      cases rest with
      | nil => exact List.chain'_singleton _
      | cons u us =>
        rw [List.chain'_cons] at h ⊢
        exact ⟨h.1, h.2⟩
    · have hrec := ih h.tail
      have hks : kcmp k0 k = .lt := kcmp_gt_iff.mp o
      unfold SortedMap at *
      rw [List.chain'_cons']
      refine ⟨?_, hrec⟩
      intro y hy
      cases rest with
      | nil =>
        simp only [mapInsert, List.head?, Option.mem_def,
          Option.some.injEq] at hy
        subst hy
        exact hks
      | cons u us =>
        obtain ⟨ku, ssu⟩ := u
        have htu : kcmp k0 ku = .lt := (List.chain'_cons.mp h).1
        rcases o2 : kcmp k ku with _ | _ | _ <;>
          simp only [mapInsert, o2, List.head?, Option.mem_def,
            Option.some.injEq] at hy <;> subst hy
        · exact hks
        · exact htu
        · exact htu

theorem mapInsert_good {k : Key} {s : String} {m : MatchMap}
    (h : GoodMap m) : GoodMap (mapInsert k s m) := by
  refine ⟨mapInsert_sorted h.1, ?_⟩
  intro e he
  rcases mem_mapInsert he with he | ⟨ss0, hm, he⟩ | he
  · subst he
    exact ⟨List.chain'_singleton s, by simp⟩
  · subst he
    exact ⟨statusInsert_sorted (h.2 _ hm).1, statusInsert_ne_nil s ss0⟩
  · exact h.2 e he

theorem mapFind?_none_of_all_lt {k : Key} {m : MatchMap}
    (h : ∀ e ∈ m, kcmp k e.1 = .lt) : mapFind? k m = none := by
  induction m with
  | nil => rfl
  | cons e0 rest ih =>
    have h0 := h e0 (List.mem_cons_self _ _)
    simp only [mapFind?, h0]
    exact ih (fun e he => h e (List.mem_cons_of_mem _ he))

theorem mapFind?_mapInsert_self (k : Key) (s : String) (m : MatchMap) :
    ∃ ss, mapFind? k (mapInsert k s m) = some ss ∧ s ∈ ss := by
  induction m with
  | nil =>
    exact ⟨[s], by simp [mapInsert, mapFind?, kcmp_self], by simp⟩
  | cons e0 rest ih =>
    obtain ⟨k0, ss0⟩ := e0
    rcases o : kcmp k k0 with _ | _ | _
    · exact ⟨[s], by simp [mapInsert, mapFind?, o, kcmp_self], by simp⟩
    · refine ⟨statusInsert s ss0, ?_, mem_statusInsert s ss0⟩
      simp [mapInsert, mapFind?, o]
    · obtain ⟨ss, hf, hm⟩ := ih
      refine ⟨ss, ?_, hm⟩
      simp [mapInsert, mapFind?, o, hf]

theorem mem_mapFind?_mapInsert {k k' : Key} {s s' : String} {m : MatchMap}
    {ss : List String} (hsort : SortedMap m)
    (hfind : mapFind? k m = some ss) (hmem : s ∈ ss) :
    ∃ ss2, mapFind? k (mapInsert k' s' m) = some ss2 ∧ s ∈ ss2 := by
  induction m generalizing ss with
  | nil => cases hfind
  | cons e0 rest ih =>
    obtain ⟨k0, ss0⟩ := e0
    rcases ohead : kcmp k k0 with _ | _ | _
    · exfalso
      simp only [mapFind?, ohead] at hfind
      have hnone : mapFind? k rest = none := by
        apply mapFind?_none_of_all_lt
        intro e he
        exact kcmp_lt_trans ohead (sortedMap_head_lt hsort he)
      rw [hnone] at hfind
      cases hfind
    · simp only [mapFind?, ohead] at hfind
      injection hfind with hfind
      subst hfind
      have hk : k = k0 := kcmp_eq_iff.mp ohead
      rcases o' : kcmp k' k0 with _ | _ | _
      · have h1 : kcmp k' k = .lt := by rw [hk]; exact o'
        have h2 : kcmp k k' = .gt := kcmp_gt_iff.mpr h1
        refine ⟨ss0, ?_, hmem⟩
        simp [mapInsert, mapFind?, o', h2, ohead]
      · refine ⟨statusInsert s' ss0, ?_, mem_statusInsert_of_mem hmem⟩
        simp [mapInsert, mapFind?, o', ohead]
      · refine ⟨ss0, ?_, hmem⟩
        simp [mapInsert, mapFind?, o', ohead]
    · simp only [mapFind?, ohead] at hfind
      rcases o' : kcmp k' k0 with _ | _ | _
      · have h1 : kcmp k' k = .lt :=
          kcmp_lt_trans o' (kcmp_gt_iff.mp ohead)
        have h2 : kcmp k k' = .gt := kcmp_gt_iff.mpr h1
        refine ⟨ss, ?_, hmem⟩
        simp [mapInsert, mapFind?, o', h2, ohead, hfind]
      · refine ⟨ss, ?_, hmem⟩
        simp [mapInsert, mapFind?, o', ohead, hfind]
      · obtain ⟨ss2, hf2, hm2⟩ := ih hsort.tail hfind hmem
        refine ⟨ss2, ?_, hm2⟩
        simp [mapInsert, mapFind?, o', ohead, hf2]

theorem mapInsert_eq_of_mem {k : Key} {s : String} {m : MatchMap}
    {ss : List String} (hg : GoodMap m)
    (hfind : mapFind? k m = some ss) (hmem : s ∈ ss) :
    mapInsert k s m = m := by
  induction m generalizing ss with
  | nil => cases hfind
  | cons e0 rest ih =>
    obtain ⟨k0, ss0⟩ := e0
    rcases o : kcmp k k0 with _ | _ | _
    · exfalso
      simp only [mapFind?, o] at hfind
      have hnone : mapFind? k rest = none := by
        apply mapFind?_none_of_all_lt
        intro e he
        exact kcmp_lt_trans o (sortedMap_head_lt hg.1 he)
      rw [hnone] at hfind
      cases hfind
    · simp only [mapFind?, o] at hfind
      injection hfind with hfind
      subst hfind
      simp only [mapInsert, o]
      rw [statusInsert_eq_of_mem (hg.2 _ (List.mem_cons_self _ _)).1 hmem]
    · simp only [mapFind?, o] at hfind
      simp only [mapInsert, o]
      rw [ih ⟨hg.1.tail, fun e he => hg.2 e (List.mem_cons_of_mem _ he)⟩ hfind hmem]

theorem step_raises {r : Regex} {f : String × String}
    (h : file_raises r f = true) (acc : MatchMap × MatchMap) :
    update_matches_step r acc f = .error reservedKeyError := by
  unfold file_raises at h
  unfold update_matches_step
  rcases o : r f.1 with _ | gd <;> rw [o] at h
  · cases h
  · simp only [Bool.and_eq_true] at h
    simp [h.1, h.2]

theorem step_ok_empty_old {r : Regex} {f : String × String}
    (h : file_raises r f = false) (acc : MatchMap) :
    update_matches_step r (acc, []) f = .ok (stepF r acc f, []) := by
  unfold file_raises at h
  unfold update_matches_step stepF keyOfMatch
  rcases o : r f.1 with _ | gd
  · rfl
  · rw [o] at h
    cases hge : gd.isEmpty with
    | true => simp [hge, popAndAdd, mapFind?]
    | false =>
      have hany : gd.any (fun g => g.1 == "reason") = false := by
        simpa [hge] using h
      simp [hge, hany, popAndAdd, mapFind?]

theorem step_ok_cases {r : Regex} {acc old acc' old' : MatchMap}
    {f : String × String}
    (h : update_matches_step r (acc, old) f = .ok (acc', old')) :
    (acc' = acc ∧ old' = old) ∨
    (∃ gd s, r f.1 = some gd ∧
      (gd.isEmpty = true ∨ gd.any (fun g => g.1 == "reason") = false) ∧
      acc' = mapInsert (keyOfMatch f.1 gd) s acc ∧
      (old' = old ∨ old' = mapRemove (keyOfMatch f.1 gd) old)) := by
  unfold update_matches_step at h
  rcases o : r f.1 with _ | gd <;> rw [o] at h
  · simp only [Except.ok.injEq, Prod.mk.injEq] at h
    exact Or.inl ⟨h.1.symm, h.2.symm⟩
  · cases hge : gd.isEmpty with
    | true =>
      simp only [hge, Bool.not_true, Bool.false_eq_true, if_false,
        popAndAdd] at h
      rcases ofind : mapFind? (canonKey [("path", some f.1)]) old with _ | ss <;>
        rw [ofind] at h
      · simp only [Except.ok.injEq, Prod.mk.injEq] at h
        refine Or.inr ⟨gd, f.2, rfl, Or.inl hge, ?_, Or.inl h.2.symm⟩
        rw [← h.1]
        unfold keyOfMatch
        simp [hge]
      · cases ss with
        | nil => simp at h
        | cons s0 srest =>
          simp only [Except.ok.injEq, Prod.mk.injEq] at h
          refine Or.inr ⟨gd, s0, rfl, Or.inl hge, ?_, Or.inr ?_⟩
          · rw [← h.1]
            unfold keyOfMatch
            simp [hge]
          · rw [← h.2]
            unfold keyOfMatch
            simp [hge]
    | false =>
      simp only [hge, Bool.not_false, if_true] at h
      cases hany : gd.any (fun g => g.1 == "reason") with
      | true =>
        rw [hany] at h
        simp at h
      | false =>
        rw [hany] at h
        simp only [Bool.false_eq_true, if_false, popAndAdd] at h
        rcases ofind : mapFind? (canonKey gd) old with _ | ss <;>
          rw [ofind] at h
        · simp only [Except.ok.injEq, Prod.mk.injEq] at h
          refine Or.inr ⟨gd, f.2, rfl, Or.inr hany, ?_, Or.inl h.2.symm⟩
          rw [← h.1]
          unfold keyOfMatch
          simp [hge]
        · cases ss with
          | nil => simp at h
          | cons s0 srest =>
            simp only [Except.ok.injEq, Prod.mk.injEq] at h
            refine Or.inr ⟨gd, s0, rfl, Or.inr hany, ?_, Or.inr ?_⟩
            · rw [← h.1]
              unfold keyOfMatch
              simp [hge]
            · rw [← h.2]
              unfold keyOfMatch
              simp [hge]

/-! ## Lemmas on the `update_matches` fold -/

theorem goodMap_nil : GoodMap [] :=
  ⟨List.chain'_nil, fun e he => absurd he (List.not_mem_nil e)⟩

theorem stepF_sorted {r : Regex} {acc : MatchMap} (f : String × String)
    (h : SortedMap acc) : SortedMap (stepF r acc f) := by
  unfold stepF
  rcases r f.1 with _ | gd
  · exact h
  · exact mapInsert_sorted h

theorem stepF_good {r : Regex} {acc : MatchMap} (f : String × String)
    (h : GoodMap acc) : GoodMap (stepF r acc f) := by
  unfold stepF
  rcases r f.1 with _ | gd
  · exact h
  · exact mapInsert_good h

theorem stepF_comm (r : Regex) (acc : MatchMap) (x y : String × String) :
    stepF r (stepF r acc x) y = stepF r (stepF r acc y) x := by
  unfold stepF
  rcases r x.1 with _ | gdx <;> rcases r y.1 with _ | gdy
  · rfl
  · rfl
  · rfl
  · exact mapInsert_comm _ _ _ _ acc

theorem foldl_stepF_perm {r : Regex} {l1 l2 : List (String × String)}
    (p : l1.Perm l2) :
    ∀ acc : MatchMap, l1.foldl (stepF r) acc = l2.foldl (stepF r) acc := by
  induction p with
  | nil => intro acc; rfl
  | cons x _ ih =>
    intro acc
    simp only [List.foldl_cons]
    exact ih _
  | swap x y l =>
    intro acc
    simp only [List.foldl_cons]
    rw [stepF_comm]
  | trans _ _ ih1 ih2 =>
    intro acc
    rw [ih1, ih2]

theorem foldl_stepF_sorted {r : Regex} :
    ∀ (l : List (String × String)) (acc : MatchMap), SortedMap acc →
    SortedMap (l.foldl (stepF r) acc) := by
  intro l
  induction l with
  | nil => intro acc h; exact h
  | cons x xs ih =>
    intro acc h
    simp only [List.foldl_cons]
    exact ih _ (stepF_sorted x h)

theorem foldl_stepF_good {r : Regex} :
    ∀ (l : List (String × String)) (acc : MatchMap), GoodMap acc →
    GoodMap (l.foldl (stepF r) acc) := by
  intro l
  induction l with
  | nil => intro acc h; exact h
  | cons x xs ih =>
    intro acc h
    simp only [List.foldl_cons]
    exact ih _ (stepF_good x h)

theorem mem_preserved_foldl {r : Regex} :
    ∀ (l : List (String × String)) (acc : MatchMap) {k : Key} {s : String}
      {ss : List String}, SortedMap acc →
    mapFind? k acc = some ss → s ∈ ss →
    ∃ ss2, mapFind? k (l.foldl (stepF r) acc) = some ss2 ∧ s ∈ ss2 := by
  intro l
  induction l with
  | nil =>
    intro acc k s ss _ hfind hmem
    exact ⟨ss, hfind, hmem⟩
  | cons x xs ih =>
    intro acc k s ss hsort hfind hmem
    simp only [List.foldl_cons]
    have hstep : ∃ ss1, mapFind? k (stepF r acc x) = some ss1 ∧ s ∈ ss1 := by
      unfold stepF
      rcases r x.1 with _ | gd
      · exact ⟨ss, hfind, hmem⟩
      · exact mem_mapFind?_mapInsert hsort hfind hmem
    obtain ⟨ss1, hf1, hm1⟩ := hstep
    exact ih _ (stepF_sorted x hsort) hf1 hm1

theorem mem_foldl_of_mem {r : Regex} :
    ∀ (l : List (String × String)) (acc : MatchMap) {f s : String}
      {gd : GroupDict}, SortedMap acc → (f, s) ∈ l → r f = some gd →
    ∃ ss, mapFind? (keyOfMatch f gd) (l.foldl (stepF r) acc) = some ss ∧
      s ∈ ss := by
  intro l
  induction l with
  | nil =>
    intro acc f s gd _ hmem _
    cases hmem
  | cons x xs ih =>
    intro acc f s gd hsort hmem hmatch
    rcases List.mem_cons.mp hmem with hx | hx
    · subst hx
      simp only [List.foldl_cons]
      have hmatch' : r (f, s).1 = some gd := hmatch
      have hstep : stepF r acc (f, s) =
          mapInsert (keyOfMatch (f, s).1 gd) (f, s).2 acc := by
        unfold stepF
        rw [hmatch']
      rw [hstep]
      obtain ⟨ss0, hf0, hm0⟩ := mapFind?_mapInsert_self (keyOfMatch f gd) s acc
      exact mem_preserved_foldl xs _ (mapInsert_sorted hsort) hf0 hm0
    · simp only [List.foldl_cons]
      exact ih _ (stepF_sorted x hsort) hx hmatch

theorem foldlM_raises {r : Regex} :
    ∀ (l : List (String × String)) (acc : MatchMap),
    (∃ f ∈ l, file_raises r f = true) →
    l.foldlM (update_matches_step r) (acc, []) = .error reservedKeyError := by
  intro l
  induction l with
  | nil =>
    intro acc h
    obtain ⟨f, hf, _⟩ := h
    cases hf
  | cons x xs ih =>
    intro acc h
    simp only [List.foldlM_cons]
    cases hx : file_raises r x with
    | true =>
      rw [step_raises hx (acc, [])]
      rfl
    | false =>
      rw [step_ok_empty_old hx acc]
      have hxs : ∃ f ∈ xs, file_raises r f = true := by
        obtain ⟨f, hf, hraise⟩ := h
        rcases List.mem_cons.mp hf with hf | hf
        · subst hf
          rw [hx] at hraise
          cases hraise
        · exact ⟨f, hf, hraise⟩
      exact ih _ hxs

theorem foldlM_no_raise {r : Regex} :
    ∀ (l : List (String × String)) (acc : MatchMap),
    (∀ f ∈ l, file_raises r f = false) →
    l.foldlM (update_matches_step r) (acc, []) =
      .ok (l.foldl (stepF r) acc, []) := by
  intro l
  induction l with
  | nil => intro acc _; rfl
  | cons x xs ih =>
    intro acc h
    simp only [List.foldlM_cons, List.foldl_cons]
    rw [step_ok_empty_old (h x (List.mem_cons_self _ _)) acc]
    have := ih (stepF r acc x) (fun f hf => h f (List.mem_cons_of_mem _ hf))
    exact this

theorem update_matches_raise {l : List (String × String)} {r : Regex}
    (h : ∃ f ∈ l, file_raises r f = true) :
    update_matches l r [] = .error reservedKeyError :=
  foldlM_raises l [] h

theorem update_matches_no_raise {l : List (String × String)} {r : Regex}
    (h : ∀ f ∈ l, file_raises r f = false) :
    update_matches l r [] = .ok (l.foldl (stepF r) [], []) :=
  foldlM_no_raise l [] h

theorem update_matches_dichotomy (l : List (String × String)) (r : Regex) :
    (∃ f ∈ l, file_raises r f = true) ∨ (∀ f ∈ l, file_raises r f = false) := by
  cases hall : l.all (fun f => !file_raises r f) with
  | true =>
    right
    intro f hf
    have := List.all_eq_true.mp hall f hf
    simpa using this
  | false =>
    left
    have := List.all_eq_false.mp hall
    obtain ⟨f, hf, hraise⟩ := this
    refine ⟨f, hf, ?_⟩
    simpa using hraise

/-- The module-level default argument `old_matches=defaultdict(set)` of
`update_matches` is never written: a call entering with it empty leaves it
empty, so no state is carried between invocations through it. -/
theorem update_matches_default_state {l : List (String × String)} {r : Regex}
    {m rem : MatchMap} (h : update_matches l r [] = .ok (m, rem)) :
    rem = [] := by
  rcases update_matches_dichotomy l r with hd | hd
  · rw [update_matches_raise hd] at h
    cases h
  · rw [update_matches_no_raise hd] at h
    injection h with h
    injection h with _ h2
    exact h2.symm

theorem except_bind_error {α β : Type} (e : String)
    (k : α → Except String β) : (Except.error e >>= k) = Except.error e := rfl

theorem except_bind_ok {α β : Type} (a : α) (k : α → Except String β) :
    (Except.ok a >>= k) = k a := rfl

theorem foldlM_key_invariant {r : Regex} (P : Key → Prop) :
    ∀ (l : List (String × String)) (acc old m o : MatchMap),
    (∀ f ∈ l, ∀ gd, r f.1 = some gd →
      (gd.isEmpty = true ∨ gd.any (fun g => g.1 == "reason") = false) →
      P (keyOfMatch f.1 gd)) →
    (∀ e ∈ acc, P e.1) →
    l.foldlM (update_matches_step r) (acc, old) = .ok (m, o) →
    ∀ e ∈ m, P e.1 := by
  intro l
  induction l with
  | nil =>
    intro acc old m o _ hacc h
    simp only [List.foldlM_nil] at h
    have h' : Except.ok (acc, old) = Except.ok (m, o) := h
    simp only [Except.ok.injEq, Prod.mk.injEq] at h'
    rw [← h'.1]
    exact hacc
  | cons x xs ih =>
    intro acc old m o hkeys hacc h
    simp only [List.foldlM_cons] at h
    cases hstep : update_matches_step r (acc, old) x with
    | error e =>
      rw [hstep, except_bind_error] at h
      exact Except.noConfusion h
    | ok p =>
      obtain ⟨acc', old'⟩ := p
      rw [hstep, except_bind_ok] at h
      have hacc' : ∀ e ∈ acc', P e.1 := by
        rcases step_ok_cases hstep with ⟨ha, _⟩ | ⟨gd, s, hmatch, hguard, ha, _⟩
        · rw [ha]
          exact hacc
        · rw [ha]
          intro e he
          rcases mem_mapInsert he with he | ⟨ss0, _, he⟩ | he
          · rw [he]
            exact hkeys x (List.mem_cons_self _ _) gd hmatch hguard
          · rw [he]
            exact hkeys x (List.mem_cons_self _ _) gd hmatch hguard
          · exact hacc e he
      exact ih acc' old' m o
        (fun f hf => hkeys f (List.mem_cons_of_mem _ hf)) hacc' h

theorem foldlM_good_invariant {r : Regex} :
    ∀ (l : List (String × String)) (acc old m o : MatchMap), GoodMap acc →
    l.foldlM (update_matches_step r) (acc, old) = .ok (m, o) → GoodMap m := by
  intro l
  induction l with
  | nil =>
    intro acc old m o hacc h
    have h' : Except.ok (acc, old) = Except.ok (m, o) := h
    simp only [Except.ok.injEq, Prod.mk.injEq] at h'
    rw [← h'.1]
    exact hacc
  | cons x xs ih =>
    intro acc old m o hacc h
    simp only [List.foldlM_cons] at h
    cases hstep : update_matches_step r (acc, old) x with
    | error e =>
      rw [hstep, except_bind_error] at h
      exact Except.noConfusion h
    | ok p =>
      obtain ⟨acc', old'⟩ := p
      rw [hstep, except_bind_ok] at h
      have hacc' : GoodMap acc' := by
        rcases step_ok_cases hstep with ⟨ha, _⟩ | ⟨gd, s, _, _, ha, _⟩
        · rw [ha]; exact hacc
        · rw [ha]; exact mapInsert_good hacc
      exact ih acc' old' m o hacc' h

/-! ## Equations for `merged_matches` and `generate_matrix` -/

theorem merged_matches_error1 {files : List ChangedFile} {r : Regex}
    {defaults : Bool} {dps : List String} {walk : List String}
    {fn : String → String → Bool} {e : String}
    (h : update_matches (files.map fun x => (x.filename, x.status)) r [] =
      .error e) :
    merged_matches files r defaults dps walk fn = .error e := by
  simp only [merged_matches]
  rw [h]

theorem merged_matches_no_expansion {files : List ChangedFile} {r : Regex}
    {defaults : Bool} {dps : List String} {walk : List String}
    {fn : String → String → Bool} {m o : MatchMap}
    (h : update_matches (files.map fun x => (x.filename, x.status)) r [] =
      .ok (m, o))
    (hg : expansion_triggered m defaults
      (matched_default_patterns (files.map fun x => (x.filename, x.status))
        dps fn) = false) :
    merged_matches files r defaults dps walk fn = .ok m := by
  simp only [merged_matches]
  rw [h]
  simp [hg]

theorem merged_matches_expansion {files : List ChangedFile} {r : Regex}
    {defaults : Bool} {dps : List String} {walk : List String}
    {fn : String → String → Bool} {m o m2 o2 : MatchMap}
    (h1 : update_matches (files.map fun x => (x.filename, x.status)) r [] =
      .ok (m, o))
    (hg : expansion_triggered m defaults
      (matched_default_patterns (files.map fun x => (x.filename, x.status))
        dps fn) = true)
    (h2 : update_matches (walk.map fun f => (f, "default")) r m =
      .ok (m2, o2)) :
    merged_matches files r defaults dps walk fn = .ok m2 := by
  simp only [merged_matches]
  rw [h1]
  simp only [hg, if_true]
  rw [h2]

theorem generate_matrix_of_merged {files : List ChangedFile} {r : Regex}
    {defaults : Bool} {dps : List String} {walk : List String}
    {fn : String → String → Bool} {m : MatchMap}
    (h : merged_matches files r defaults dps walk fn = .ok m) :
    generate_matrix files r defaults dps walk fn =
      .ok (sortRows (m.map (fun e => rowOf e.1 e.2))) := by
  unfold generate_matrix
  rw [h]
  rfl

theorem generate_matrix_of_merged_error {files : List ChangedFile} {r : Regex}
    {defaults : Bool} {dps : List String} {walk : List String}
    {fn : String → String → Bool} {e : String}
    (h : merged_matches files r defaults dps walk fn = .error e) :
    generate_matrix files r defaults dps walk fn = .error e := by
  unfold generate_matrix
  rw [h]
  rfl

/-! ## Lemmas on sorting and row construction -/

theorem insertRow_perm (x : Row) (l : List Row) :
    (insertRow x l).Perm (x :: l) := by
  induction l with
  | nil => exact List.Perm.refl _
  | cons y ys ih =>
    unfold insertRow
    by_cases h : rowLe x y
    · rw [if_pos h]
    · rw [if_neg h]
      exact (ih.cons y).trans (List.Perm.swap x y ys)

theorem sortRows_perm (l : List Row) : (sortRows l).Perm l := by
  induction l with
  | nil => exact List.Perm.refl _
  | cons x xs ih =>
    unfold sortRows at *
    simp only [List.foldr_cons]
    exact (insertRow_perm x _).trans (ih.cons x)

theorem dictAssign_of_not_mem {d : Row} {name : String} {v : Val}
    (h : ∀ g ∈ d, g.1 ≠ name) : dictAssign d name v = d ++ [(name, v)] := by
  unfold dictAssign
  have hany : d.any (fun g => g.1 == name) = false := by
    rw [List.any_eq_false]
    intro g hg
    simpa using h g hg
  simp [hany]

theorem mem_dictAssign_self (d : Row) (name : String) (v : Val) :
    (name, v) ∈ dictAssign d name v := by
  unfold dictAssign
  cases hany : d.any (fun g => g.1 == name) with
  | true =>
    simp only [if_pos rfl, if_true]
    obtain ⟨g, hg, hgname⟩ := List.any_eq_true.mp hany
    exact List.mem_map.mpr ⟨g, hg, by simp [hgname]⟩
  | false =>
    simp only [Bool.false_eq_true, if_false]
    exact List.mem_append_right _ (List.mem_cons_self _ _)

theorem filter_dictAssign_reason {d : Row}
    (h : ∀ g ∈ d, g.1 ≠ "reason") (v : Val) :
    (dictAssign d "reason" v).filter (fun g => !(g.1 == "reason")) = d := by
  rw [dictAssign_of_not_mem h, List.filter_append]
  have h1 : d.filter (fun g => !(g.1 == "reason")) = d := by
    rw [List.filter_eq_self]
    intro g hg
    simpa using h g hg
  rw [h1]
  simp

/-! ## Further helper lemmas toward the claims -/

theorem merged_matches_expansion_error {files : List ChangedFile} {r : Regex}
    {defaults : Bool} {dps walk : List String}
    {fn : String → String → Bool} {m o : MatchMap} {e : String}
    (h1 : update_matches (files.map fun x => (x.filename, x.status)) r [] =
      .ok (m, o))
    (hg : expansion_triggered m defaults
      (matched_default_patterns (files.map fun x => (x.filename, x.status))
        dps fn) = true)
    (h2 : update_matches (walk.map fun f => (f, "default")) r m = .error e) :
    merged_matches files r defaults dps walk fn = .error e := by
  simp only [merged_matches]
  rw [h1]
  simp only [hg, if_true]
  rw [h2]

theorem update_matches_filter :
    ∀ (l : List (String × String)) (r : Regex) (acc : MatchMap × MatchMap),
    (l.filter (fun f => (r f.1).isSome)).foldlM (update_matches_step r) acc =
      l.foldlM (update_matches_step r) acc := by
  intro l r
  induction l with
  | nil => intro acc; rfl
  | cons x xs ih =>
    intro acc
    cases hx : r x.1 with
    | none =>
      have hpred : ((r x.1).isSome) = false := by rw [hx]; rfl
      rw [List.filter_cons, hpred]
      simp only [Bool.false_eq_true, if_false]
      have hstep : update_matches_step r acc x = .ok acc := by
        unfold update_matches_step
        rw [hx]
      simp only [List.foldlM_cons]
      rw [hstep, except_bind_ok, ih]
    | some gd =>
      have hpred : ((r x.1).isSome) = true := by rw [hx]; rfl
      rw [List.filter_cons, hpred]
      simp only [if_true]
      simp only [List.foldlM_cons]
      cases hstep : update_matches_step r acc x with
      | error e =>
        rw [except_bind_error, except_bind_error]
      | ok p =>
        rw [except_bind_ok, except_bind_ok, ih]

theorem mem_fieldInsert {g f : String × Val} {k : Key}
    (h : g ∈ fieldInsert f k) : g = f ∨ g ∈ k := by
  induction k with
  | nil => simpa [fieldInsert] using h
  | cons g0 gs ih =>
    simp only [fieldInsert] at h
    rcases o : scmp f.1 g0.1 with _ | _ | _ <;> simp only [o] at h
    · rcases List.mem_cons.mp h with h | h
      · exact Or.inl h
      · exact Or.inr h
    · rcases List.mem_cons.mp h with h | h
      · exact Or.inl h
      · exact Or.inr (List.mem_cons_of_mem _ h)
    · rcases List.mem_cons.mp h with h | h
      · exact Or.inr (h ▸ List.mem_cons_self _ _)
      · rcases ih h with h | h
        · exact Or.inl h
        · exact Or.inr (List.mem_cons_of_mem _ h)

theorem mem_canonKey {g : String × Val} {gd : List (String × Val)}
    (h : g ∈ canonKey gd) : g ∈ gd := by
  unfold canonKey at h
  suffices hgen : ∀ (l : List (String × Val)) (acc : Key),
      g ∈ l.foldl (fun k f => fieldInsert f k) acc → g ∈ acc ∨ g ∈ l by
    rcases hgen gd [] h with h | h
    · cases h
    · exact h
  intro l
  induction l with
  | nil =>
    intro acc h
    exact Or.inl h
  | cons f fs ih =>
    intro acc h
    simp only [List.foldl_cons] at h
    rcases ih _ h with h | h
    · rcases mem_fieldInsert h with h | h
      · exact Or.inr (h ▸ List.mem_cons_self _ _)
      · exact Or.inl h
    · exact Or.inr (List.mem_cons_of_mem _ h)

theorem merged_matches_key_invariant {files : List ChangedFile} {r : Regex}
    {defaults : Bool} {dps walk : List String}
    {fn : String → String → Bool} {m : MatchMap} (P : Key → Prop)
    (hkeys : ∀ (f : String × String),
      (f ∈ files.map (fun e => (e.filename, e.status)) ∨
        f ∈ walk.map (fun w => (w, "default"))) →
      ∀ gd, r f.1 = some gd →
      (gd.isEmpty = true ∨ gd.any (fun g => g.1 == "reason") = false) →
      P (keyOfMatch f.1 gd))
    (h : merged_matches files r defaults dps walk fn = .ok m) :
    ∀ e ∈ m, P e.1 := by
  cases h1 : update_matches (files.map fun e => (e.filename, e.status)) r []
    with
  | error e =>
    rw [merged_matches_error1 h1] at h
    exact Except.noConfusion h
  | ok p =>
    obtain ⟨m1, o1⟩ := p
    have hinv1 : ∀ e ∈ m1, P e.1 :=
      foldlM_key_invariant P _ [] [] m1 o1
        (fun f hf gd hgd hguard => hkeys f (Or.inl hf) gd hgd hguard)
        (fun e he => absurd he (List.not_mem_nil e)) h1
    cases hg : expansion_triggered m1 defaults
        (matched_default_patterns (files.map fun e => (e.filename, e.status))
          dps fn) with
    | false =>
      rw [merged_matches_no_expansion h1 hg] at h
      injection h with h
      rw [← h]
      exact hinv1
    | true =>
      cases h2 : update_matches (walk.map fun f => (f, "default")) r m1 with
      | error e =>
        rw [merged_matches_expansion_error h1 hg h2] at h
        exact Except.noConfusion h
      | ok p2 =>
        obtain ⟨m2, o2⟩ := p2
        rw [merged_matches_expansion h1 hg h2] at h
        injection h with h
        rw [← h]
        exact foldlM_key_invariant P _ [] m1 m2 o2
          (fun f hf gd hgd hguard => hkeys f (Or.inr hf) gd hgd hguard)
          (fun e he => absurd he (List.not_mem_nil e)) h2

theorem merged_matches_good {files : List ChangedFile} {r : Regex}
    {defaults : Bool} {dps walk : List String}
    {fn : String → String → Bool} {m : MatchMap}
    (h : merged_matches files r defaults dps walk fn = .ok m) :
    GoodMap m := by
  cases h1 : update_matches (files.map fun e => (e.filename, e.status)) r []
    with
  | error e =>
    rw [merged_matches_error1 h1] at h
    exact Except.noConfusion h
  | ok p =>
    obtain ⟨m1, o1⟩ := p
    have hg1 : GoodMap m1 :=
      foldlM_good_invariant _ [] [] m1 o1 goodMap_nil h1
    cases hg : expansion_triggered m1 defaults
        (matched_default_patterns (files.map fun e => (e.filename, e.status))
          dps fn) with
    | false =>
      rw [merged_matches_no_expansion h1 hg] at h
      injection h with h
      rw [← h]
      exact hg1
    | true =>
      cases h2 : update_matches (walk.map fun f => (f, "default")) r m1 with
      | error e =>
        rw [merged_matches_expansion_error h1 hg h2] at h
        exact Except.noConfusion h
      | ok p2 =>
        obtain ⟨m2, o2⟩ := p2
        rw [merged_matches_expansion h1 hg h2] at h
        injection h with h
        rw [← h]
        exact foldlM_good_invariant _ [] m1 m2 o2 goodMap_nil h2

theorem merged_keys_no_reason {files : List ChangedFile} {r : Regex}
    {defaults : Bool} {dps walk : List String}
    {fn : String → String → Bool} {m : MatchMap}
    (h : merged_matches files r defaults dps walk fn = .ok m) :
    ∀ e ∈ m, ∀ g ∈ e.1, g.1 ≠ "reason" := by
  apply merged_matches_key_invariant (fun k => ∀ g ∈ k, g.1 ≠ "reason") _ h
  intro f _ gd _ hguard
  unfold keyOfMatch
  cases hge : gd.isEmpty with
  | true =>
    simp only [hge, Bool.not_true, Bool.false_eq_true, if_false]
    intro g hg
    have hmem : g = ("path", some f.1) :=
      List.mem_singleton.mp (mem_canonKey hg)
    rw [hmem]
    show ("path" : String) ≠ "reason"
    decide
  | false =>
    simp only [hge, Bool.not_false, if_true]
    intro g hg
    rcases hguard with hguard | hguard
    · rw [hge] at hguard
      cases hguard
    · have := List.any_eq_false.mp hguard g (mem_canonKey hg)
      simpa using this

theorem any_perm {α : Type} {l l' : List α} (p : l.Perm l') (f : α → Bool) :
    l.any f = l'.any f := by
  induction p with
  | nil => rfl
  | cons x _ ih => simp [List.any_cons, ih]
  | swap x y l => simp [List.any_cons, Bool.or_left_comm]
  | trans _ _ ih1 ih2 => rw [ih1, ih2]

theorem update_matches_perm {l l' : List (String × String)} {r : Regex}
    (p : l.Perm l') : update_matches l r [] = update_matches l' r [] := by
  rcases update_matches_dichotomy l r with hd | hd
  · obtain ⟨f, hf, hr⟩ := hd
    rw [update_matches_raise ⟨f, hf, hr⟩,
      update_matches_raise ⟨f, p.mem_iff.mp hf, hr⟩]
  · have hd' : ∀ f ∈ l', file_raises r f = false :=
      fun f hf => hd f (p.mem_iff.mpr hf)
    rw [update_matches_no_raise hd, update_matches_no_raise hd',
      foldl_stepF_perm p]

theorem update_matches_duplicate {l : List (String × String)} {r : Regex}
    {x : String × String} (hx : x ∈ l) :
    update_matches (l ++ [x]) r [] = update_matches l r [] := by
  rcases update_matches_dichotomy l r with hd | hd
  · obtain ⟨f, hf, hr⟩ := hd
    rw [update_matches_raise ⟨f, List.mem_append_left _ hf, hr⟩,
      update_matches_raise ⟨f, hf, hr⟩]
  · have hd' : ∀ f ∈ l ++ [x], file_raises r f = false := by
      intro f hf
      rcases List.mem_append.mp hf with hf | hf
      · exact hd f hf
      · rw [List.mem_singleton.mp hf]
        exact hd x hx
    rw [update_matches_no_raise hd, update_matches_no_raise hd',
      List.foldl_append]
    simp only [List.foldl_cons, List.foldl_nil]
    have hgood : GoodMap (l.foldl (stepF r) []) :=
      foldl_stepF_good l [] goodMap_nil
    cases hmx : r x.1 with
    | none =>
      have hstep_eq : stepF r (l.foldl (stepF r) []) x =
          l.foldl (stepF r) [] := by
        unfold stepF
        rw [hmx]
      rw [hstep_eq]
    | some gd =>
      have hstep_eq : stepF r (l.foldl (stepF r) []) x =
          mapInsert (keyOfMatch x.1 gd) x.2 (l.foldl (stepF r) []) := by
        unfold stepF
        rw [hmx]
      have hx' : (x.1, x.2) ∈ l := by
        rw [Prod.mk.eta]
        exact hx
      obtain ⟨ss, hf, hm⟩ :=
        mem_foldl_of_mem l [] (List.chain'_nil) hx' hmx
      rw [hstep_eq, mapInsert_eq_of_mem hgood hf hm]

theorem sortedMap_keys_ne {m : MatchMap} (hs : SortedMap m) :
    m.Pairwise (fun a b => a.1 ≠ b.1) := by
  induction m with
  | nil => exact List.Pairwise.nil
  | cons e rest ih =>
    refine List.Pairwise.cons ?_ (ih hs.tail)
    intro x hx
    have hlt := sortedMap_head_lt hs hx
    intro heq
    rw [heq, kcmp_self] at hlt
    cases hlt

theorem file_raises_of_reason {r : Regex} {fname st : String}
    (hreason : ∀ s gd, r s = some gd →
      gd.any (fun g => g.1 == "reason") = true)
    (hsome : (r fname).isSome = true) :
    file_raises r (fname, st) = true := by
  obtain ⟨gd, hgd⟩ := Option.isSome_iff_exists.mp hsome
  have hany := hreason fname gd hgd
  have hge : gd.isEmpty = false := by
    cases gd with
    | nil =>
      rw [List.any_nil] at hany
      cases hany
    | cons a as => rfl
  unfold file_raises
  have hgd' : r (fname, st).1 = some gd := hgd
  rw [hgd']
  show (!gd.isEmpty && gd.any (fun g => g.1 == "reason")) = true
  rw [hge, hany]
  rfl

theorem foldl_stepF_none {r : Regex} :
    ∀ (l : List (String × String)) (acc : MatchMap),
    (∀ f ∈ l, r f.1 = none) → l.foldl (stepF r) acc = acc := by
  intro l
  induction l with
  | nil => intro acc _; rfl
  | cons x xs ih =>
    intro acc h
    simp only [List.foldl_cons]
    have hx : stepF r acc x = acc := by
      unfold stepF
      rw [h x (List.mem_cons_self _ _)]
    rw [hx]
    exact ih acc (fun f hf => h f (List.mem_cons_of_mem _ hf))

/-! ## The claims -/

/-- C1: evaluation of the code at a failing input for the claim that
default expansion merges synthesized default files into the matches
already found without losing any of them.  The pattern is
`(?P<environment>\w+)/.*`; the only real change is `staging/app` with
status `removed`; the default pattern `*` matches it and triggers
expansion; the walk finds only `live/app` (the removed file is no longer
on disk).  The first conjunct shows the Change Matcher did record the key
`{environment: staging}` with status `removed`; the second shows the final
matrix of the full run has dropped that key entirely, keeping only the
default-synthesized `{environment: live}` row. -/
theorem claim_C1_merge_loses_recorded_key :
    update_matches [("staging/app", "removed")] wordSlashRegex [] =
      .ok ([([("environment", some "staging")], ["removed"])], []) ∧
    generate_matrix [⟨"staging/app", "removed"⟩] wordSlashRegex false ["*"]
      ["live/app"] (fun _ p => p == "*") =
      .ok [[("environment", some "live"), ("reason", some "default")]] :=
  ⟨rfl, rfl⟩

/-- C2 (counterexample): the pattern `(?P<reason>.*)` defines a named
group literally called `reason` (first conjunct: its groupdict on any
match contains `reason`), yet running matrix generation on the empty file
list with defaults disabled succeeds with an empty matrix instead of
failing with the reserved-key error. -/
theorem claim_C2_counterexample :
    reasonRegex "x" = some [("reason", some "x")] ∧
    generate_matrix [] reasonRegex false [] [] (fun _ _ => false) =
      .ok [] :=
  ⟨rfl, rfl⟩

/-- C2 (amended): with an include pattern defining a capture group
literally called `reason` (every match's groupdict names `reason`),
matrix generation fails with the reserved-key `ValueError` whenever at
least one processed file matches the pattern: whenever some changed file
matches, and also when no changed file matches but default expansion is
triggered (defaults enabled, or some default glob pattern matched a
changed path) and some walked file matches; the error aborts the whole
run. -/
theorem claim_C2_amended {files : List ChangedFile} {r : Regex}
    {defaults : Bool} {dps walk : List String}
    {fn : String → String → Bool}
    (hreason : ∀ s gd, r s = some gd →
      gd.any (fun g => g.1 == "reason") = true)
    (hmatch : (∃ cf ∈ files, (r cf.filename).isSome = true) ∨
      ((∀ cf ∈ files, r cf.filename = none) ∧
        (defaults = true ∨
          matched_default_patterns
            (files.map fun e => (e.filename, e.status)) dps fn ≠ []) ∧
        ∃ w ∈ walk, (r w).isSome = true)) :
    generate_matrix files r defaults dps walk fn = .error reservedKeyError := by
  rcases hmatch with ⟨cf, hcf, hsome⟩ | ⟨hnone, htrig, w, hw, hsome⟩
  · have hraise : file_raises r (cf.filename, cf.status) = true :=
      file_raises_of_reason hreason hsome
    have hmem : (cf.filename, cf.status) ∈
        files.map (fun e => (e.filename, e.status)) :=
      List.mem_map_of_mem _ hcf
    have herr := update_matches_raise (l :=
      files.map (fun e => (e.filename, e.status))) (r := r)
      ⟨(cf.filename, cf.status), hmem, hraise⟩
    exact generate_matrix_of_merged_error (merged_matches_error1 herr)
  · have hnomatch : ∀ f ∈ files.map (fun e => (e.filename, e.status)),
        r f.1 = none := by
      intro f hf
      obtain ⟨e, he, hfe⟩ := List.mem_map.mp hf
      rw [← hfe]
      exact hnone e he
    have hnoraise : ∀ f ∈ files.map (fun e => (e.filename, e.status)),
        file_raises r f = false := by
      intro f hf
      unfold file_raises
      rw [hnomatch f hf]
    have h1 : update_matches
        (files.map fun e => (e.filename, e.status)) r [] = .ok ([], []) := by
      rw [update_matches_no_raise hnoraise, foldl_stepF_none _ [] hnomatch]
    have hg : expansion_triggered [] defaults
        (matched_default_patterns
          (files.map fun e => (e.filename, e.status)) dps fn) = true := by
      unfold expansion_triggered
      rcases htrig with htrig | htrig
      · rw [htrig]
        rfl
      · have hne : (matched_default_patterns
            (files.map fun e => (e.filename, e.status)) dps fn).isEmpty =
            false := by
          cases hmdp : matched_default_patterns
              (files.map fun e => (e.filename, e.status)) dps fn with
          | nil => exact absurd hmdp htrig
          | cons a as => rfl
        rw [hne]
        simp
    have hraise2 : ∃ f ∈ walk.map (fun x => (x, "default")),
        file_raises r f = true :=
      ⟨(w, "default"), List.mem_map_of_mem _ hw,
        file_raises_of_reason hreason hsome⟩
    exact generate_matrix_of_merged_error
      (merged_matches_expansion_error h1 hg (update_matches_raise hraise2))

/-- C2 (amended) witness at a concrete input exercising the walked-file
case: pattern `(?P<reason>.*)`, no changed files, defaults enabled, one
walked file `x1`. -/
theorem claim_C2_amended_witness :
    generate_matrix [] reasonRegex true [] ["x1"] (fun _ _ => false) =
      .error reservedKeyError :=
  claim_C2_amended
    (fun s gd h => by
      injection h with h
      rw [← h]
      rfl)
    (Or.inr ⟨fun cf hcf => absurd hcf (List.not_mem_nil cf),
      Or.inl rfl, "x1", List.mem_cons_self _ _, rfl⟩)

/-- C8 (counterexample): with the pattern `(?P<a>x)|(?P<b>y)` and the
single changed file `x`, generation succeeds and the produced record maps
the field `b` to `None` (the group did not participate in the match), so
not every field of every record holds a string. -/
theorem claim_C8_counterexample :
    generate_matrix [⟨"x", "modified"⟩] abRegex false [] []
      (fun _ _ => false) =
      .ok [[("a", some "x"), ("b", none), ("reason", some "modified")]] ∧
    ("b", (none : Val)) ∈
      [("a", some "x"), ("b", (none : Val)), ("reason", some "modified")] :=
  ⟨rfl, by decide⟩

/-- C8 (amended): for every pattern and input on which matrix generation
succeeds, every record maps string field names to optional string values
(a named group that did not participate in a match yields a `None`-valued
field), and every record includes the `reason` field with a genuine
(non-`None`) string value. -/
theorem claim_C8_amended {files : List ChangedFile} {r : Regex}
    {defaults : Bool} {dps walk : List String}
    {fn : String → String → Bool} {rows : List Row}
    (h : generate_matrix files r defaults dps walk fn = .ok rows) :
    ∀ row ∈ rows, ∃ v : String, ("reason", some v) ∈ row := by
  unfold generate_matrix at h
  cases hm : merged_matches files r defaults dps walk fn with
  | error e =>
    rw [hm] at h
    exact Except.noConfusion h
  | ok m =>
    rw [hm] at h
    injection h with h
    intro row hrow
    rw [← h] at hrow
    have hrow2 : row ∈ m.map (fun e => rowOf e.1 e.2) :=
      ((sortRows_perm _).mem_iff).mp hrow
    obtain ⟨e, _, he⟩ := List.mem_map.mp hrow2
    refine ⟨reasonOf e.2, ?_⟩
    rw [← he]
    exact mem_dictAssign_self e.1 "reason" (some (reasonOf e.2))

/-- C8 (amended) witness at a concrete input and row. -/
theorem claim_C8_amended_witness :
    ∃ v : String, ("reason", some v) ∈
      [("a", some "x"), ("b", (none : Val)), ("reason", some "modified")] :=
  @claim_C8_amended [⟨"x", "modified"⟩] abRegex false [] []
    (fun _ _ => false)
    [[("a", some "x"), ("b", (none : Val)), ("reason", some "modified")]] rfl
    [("a", some "x"), ("b", (none : Val)), ("reason", some "modified")]
    (List.mem_cons_self _ _)

/-- C9: a changed file whose path does not match the compiled pattern
(`pattern.match`, anchored at position 0, is `None`) is silently excluded:
filtering non-matching files out of the input changes nothing about
`update_matches` — no key is produced for them and no error is raised.
The remaining conjuncts exhibit the prefix-match semantics on the model
of the concrete pattern `clusters/.*`: a strictly longer path still
matches (the pattern need not consume the whole string), the shorter
non-matching path `clusters` yields `None`, and the full run silently
excludes it, producing the empty matrix without an error. -/
theorem claim_C9_prefix_match_exclusion :
    (∀ (l : List (String × String)) (r : Regex) (old : MatchMap),
      update_matches (l.filter (fun f => (r f.1).isSome)) r old =
        update_matches l r old) ∧
    clustersRegex "clusters/staging/app" = some [] ∧
    clustersRegex "clusters" = none ∧
    generate_matrix [⟨"clusters", "modified"⟩] clustersRegex false [] []
      (fun _ _ => false) = .ok [] :=
  ⟨fun l r old => update_matches_filter l r ([], old), rfl, rfl, rfl⟩

/-- C3: for every key in the final merged key-to-statuses mapping, the
produced matrix contains the row for that key with the `reason` field
resolved from its status set: `reason` is the single status when exactly
one distinct status was recorded (the canonical status set is a
singleton), and the literal string `updated` when two or more distinct
statuses were recorded. -/
theorem claim_C3_reason_resolution {files : List ChangedFile} {r : Regex}
    {defaults : Bool} {dps walk : List String}
    {fn : String → String → Bool} {m : MatchMap} {k : Key}
    {ss : List String}
    (hm : merged_matches files r defaults dps walk fn = .ok m)
    (hmem : (k, ss) ∈ m) :
    ∃ rows, generate_matrix files r defaults dps walk fn = .ok rows ∧
      rowOf k ss ∈ rows ∧
      rowOf k ss = dictAssign k "reason" (some (reasonOf ss)) ∧
      (∀ s, ss = [s] → reasonOf ss = s) ∧
      (2 ≤ ss.length → reasonOf ss = "updated") := by
  refine ⟨sortRows (m.map (fun e => rowOf e.1 e.2)),
    generate_matrix_of_merged hm, ?_, rfl, ?_, ?_⟩
  · have : rowOf k ss ∈ m.map (fun e => rowOf e.1 e.2) :=
      List.mem_map.mpr ⟨(k, ss), hmem, rfl⟩
    exact ((sortRows_perm _).mem_iff).mpr this
  · intro s hs
    rw [hs]
    rfl
  · intro h2
    cases ss with
    | nil => cases h2
    | cons s0 srest =>
      cases srest with
      | nil =>
        exfalso
        simp at h2
      | cons s1 srest2 => rfl

/-- C3 witness at a concrete input: pattern `clusters/.*`, one matching
changed file. -/
theorem claim_C3_witness :
    ∃ rows, generate_matrix [⟨"clusters/a", "modified"⟩] clustersRegex
        false [] [] (fun _ _ => false) = .ok rows ∧
      rowOf [("path", some "clusters/a")] ["modified"] ∈ rows ∧
      rowOf [("path", some "clusters/a")] ["modified"] =
        dictAssign [("path", some "clusters/a")] "reason"
          (some (reasonOf ["modified"])) ∧
      (∀ s, ["modified"] = [s] → reasonOf ["modified"] = s) ∧
      (2 ≤ (["modified"] : List String).length →
        reasonOf ["modified"] = "updated") :=
  claim_C3_reason_resolution
    (m := [([("path", some "clusters/a")], ["modified"])]) rfl
    (List.mem_cons_self _ _)

/-- C4: default expansion occurs if and only if the Change Matcher
produced zero keys with default-fallback enabled, or some changed file's
path matches one of the caller-supplied glob default patterns; when
neither condition holds the result is independent of the directory walk
and equals the matrix computed from the real changes alone. -/
theorem claim_C4_expansion_trigger {files : List ChangedFile} {r : Regex}
    {defaults : Bool} {dps walk : List String}
    {fn : String → String → Bool} {m o : MatchMap}
    (h : update_matches (files.map fun e => (e.filename, e.status)) r [] =
      .ok (m, o)) :
    (expansion_triggered m defaults
        (matched_default_patterns (files.map fun e => (e.filename, e.status))
          dps fn) = true ↔
      ((m = [] ∧ defaults = true) ∨
        ∃ p ∈ dps, ∃ c ∈ files.map (fun e => (e.filename, e.status)),
          fn c.1 p = true)) ∧
    (expansion_triggered m defaults
        (matched_default_patterns (files.map fun e => (e.filename, e.status))
          dps fn) = false →
      ∀ walk2, generate_matrix files r defaults dps walk fn =
          generate_matrix files r defaults dps walk2 fn ∧
        generate_matrix files r defaults dps walk fn =
          .ok (sortRows (m.map fun e => rowOf e.1 e.2))) := by
  constructor
  · unfold expansion_triggered matched_default_patterns
    rw [Bool.or_eq_true, Bool.and_eq_true]
    constructor
    · intro hc
      rcases hc with ⟨he, hd⟩ | hne
      · exact Or.inl ⟨List.isEmpty_iff.mp he, hd⟩
      · right
        rw [Bool.not_eq_eq_eq_not, Bool.not_true] at hne
        have : ¬(dps.filter (fun pattern =>
            (files.map fun e => (e.filename, e.status)).any
              (fun c => fn c.1 pattern)) = []) := by
          intro hnil
          rw [hnil] at hne
          cases hne
        obtain ⟨p, hp⟩ := List.exists_mem_of_ne_nil _ this
        have hp2 := List.mem_filter.mp hp
        obtain ⟨c, hc, hcp⟩ := List.any_eq_true.mp hp2.2
        exact ⟨p, hp2.1, c, hc, hcp⟩
    · intro hc
      rcases hc with ⟨he, hd⟩ | ⟨p, hp, c, hc, hcp⟩
      · exact Or.inl ⟨List.isEmpty_iff.mpr he, hd⟩
      · right
        rw [Bool.not_eq_eq_eq_not, Bool.not_true]
        have hpmem : p ∈ dps.filter (fun pattern =>
            (files.map fun e => (e.filename, e.status)).any
              (fun c => fn c.1 pattern)) :=
          List.mem_filter.mpr ⟨hp, List.any_eq_true.mpr ⟨c, hc, hcp⟩⟩
        cases hfil : dps.filter (fun pattern =>
            (files.map fun e => (e.filename, e.status)).any
              (fun c => fn c.1 pattern)) with
        | nil =>
          rw [hfil] at hpmem
          cases hpmem
        | cons a as => rfl
  · intro hg walk2
    have e1 := generate_matrix_of_merged
      (@merged_matches_no_expansion _ _ _ _ walk _ _ _ h hg)
    have e2 := generate_matrix_of_merged
      (@merged_matches_no_expansion _ _ _ _ walk2 _ _ _ h hg)
    exact ⟨e1.trans e2.symm, e1⟩

/-- C4 witness at a concrete input: one non-matching changed file,
defaults disabled, no default patterns. -/
theorem claim_C4_witness :
    ((expansion_triggered [] false
        (matched_default_patterns [("a", "modified")] []
          (fun _ _ => false)) = true ↔
      ((([] : MatchMap) = [] ∧ false = true) ∨
        ∃ p ∈ ([] : List String), ∃ c ∈
          ([⟨"a", "modified"⟩] : List ChangedFile).map
            (fun e => (e.filename, e.status)),
          (fun _ _ => false) c.1 p = true)) ∧
    (expansion_triggered [] false
        (matched_default_patterns [("a", "modified")] []
          (fun _ _ => false)) = false →
      ∀ walk2, generate_matrix [⟨"a", "modified"⟩] clustersRegex false []
          ["w"] (fun _ _ => false) =
          generate_matrix [⟨"a", "modified"⟩] clustersRegex false []
            walk2 (fun _ _ => false) ∧
        generate_matrix [⟨"a", "modified"⟩] clustersRegex false []
          ["w"] (fun _ _ => false) =
          .ok (sortRows (([] : MatchMap).map fun e => rowOf e.1 e.2)))) :=
  @claim_C4_expansion_trigger [⟨"a", "modified"⟩] clustersRegex false []
    ["w"] (fun _ _ => false) [] [] rfl

theorem nonReasonFields_rowOf {k : Key} {ss : List String}
    (h : ∀ g ∈ k, g.1 ≠ "reason") : nonReasonFields (rowOf k ss) = k := by
  unfold nonReasonFields rowOf
  exact filter_dictAssign_reason h _

/-- C6: the produced matrix contains at most one row per distinct match
key: no two output records agree on all their non-`reason` fields. -/
theorem claim_C6_key_uniqueness {files : List ChangedFile} {r : Regex}
    {defaults : Bool} {dps walk : List String}
    {fn : String → String → Bool} {rows : List Row}
    (h : generate_matrix files r defaults dps walk fn = .ok rows) :
    rows.Pairwise (fun a b => nonReasonFields a ≠ nonReasonFields b) := by
  unfold generate_matrix at h
  cases hm : merged_matches files r defaults dps walk fn with
  | error e =>
    rw [hm] at h
    exact Except.noConfusion h
  | ok m =>
    rw [hm] at h
    injection h with h
    rw [← h]
    have hgood := merged_matches_good hm
    have hnor := merged_keys_no_reason hm
    have hkeys : m.Pairwise (fun a b => a.1 ≠ b.1) :=
      sortedMap_keys_ne hgood.1
    have hrowsP : (m.map (fun e => rowOf e.1 e.2)).Pairwise
        (fun a b => nonReasonFields a ≠ nonReasonFields b) := by
      rw [List.pairwise_map]
      refine hkeys.imp_of_mem ?_
      intro a b ha hb hne
      rw [nonReasonFields_rowOf (hnor a ha),
        nonReasonFields_rowOf (hnor b hb)]
      exact hne
    exact ((sortRows_perm (m.map (fun e => rowOf e.1 e.2))).pairwise_iff
      (fun {x y} hab he => hab he.symm)).mpr hrowsP

/-- C7: with a pattern that defines no named capture groups, every output
record has exactly the two fields `path` and `reason`, and the value of
`path` is verbatim the full input path of a matched processed file
(a changed file, or a walked file during default expansion). -/
theorem claim_C7_no_group_rows {files : List ChangedFile} {r : Regex}
    {defaults : Bool} {dps walk : List String}
    {fn : String → String → Bool} {rows : List Row}
    (hng : ∀ s gd, r s = some gd → gd = [])
    (h : generate_matrix files r defaults dps walk fn = .ok rows) :
    ∀ row ∈ rows, ∃ fname rs,
      row = [("path", some fname), ("reason", some rs)] ∧
      (r fname).isSome = true ∧
      fname ∈ files.map (fun e => e.filename) ++ walk := by
  unfold generate_matrix at h
  cases hm : merged_matches files r defaults dps walk fn with
  | error e =>
    rw [hm] at h
    exact Except.noConfusion h
  | ok m =>
    rw [hm] at h
    injection h with h
    have hP : ∀ e ∈ m, (∃ fname, e.1 = [("path", some fname)] ∧
        (r fname).isSome = true ∧
        fname ∈ files.map (fun e => e.filename) ++ walk) := by
      apply merged_matches_key_invariant
        (fun k => ∃ fname, k = [("path", some fname)] ∧
          (r fname).isSome = true ∧
          fname ∈ files.map (fun e => e.filename) ++ walk) _ hm
      intro f hf gd hgd _
      have hnil : gd = [] := hng f.1 gd hgd
      subst hnil
      refine ⟨f.1, rfl, ?_, ?_⟩
      · rw [hgd]
        rfl
      · rcases hf with hf | hf
        · apply List.mem_append_left
          obtain ⟨e, he, hfe⟩ := List.mem_map.mp hf
          rw [← hfe]
          exact List.mem_map_of_mem _ he
        · apply List.mem_append_right
          obtain ⟨w, hw, hfw⟩ := List.mem_map.mp hf
          rw [← hfw]
          exact hw
    intro row hrow
    rw [← h] at hrow
    have hrow2 : row ∈ m.map (fun e => rowOf e.1 e.2) :=
      ((sortRows_perm _).mem_iff).mp hrow
    obtain ⟨e, hem, he⟩ := List.mem_map.mp hrow2
    obtain ⟨fname, hk, hsome, hmem⟩ := hP e hem
    refine ⟨fname, reasonOf e.2, ?_, hsome, hmem⟩
    rw [← he]
    unfold rowOf
    rw [hk, dictAssign_of_not_mem]
    · rfl
    · intro g hg
      have : g = ("path", some fname) := List.mem_singleton.mp hg
      rw [this]
      show ("path" : String) ≠ "reason"
      decide

/-- C10: duplicate input entries are irrelevant — appending another copy
of a (filename, status) entry already present in the file list produces
exactly the same matrix: statuses are accumulated per key as a set, and
expansion triggering depends only on which paths occur. -/
theorem claim_C10_duplicates_irrelevant {files : List ChangedFile}
    {r : Regex} {defaults : Bool} {dps walk : List String}
    {fn : String → String → Bool} {cf : ChangedFile} (hmem : cf ∈ files) :
    generate_matrix (files ++ [cf]) r defaults dps walk fn =
      generate_matrix files r defaults dps walk fn := by
  have hmap : (files ++ [cf]).map (fun e => (e.filename, e.status)) =
      files.map (fun e => (e.filename, e.status)) ++
        [(cf.filename, cf.status)] := by
    rw [List.map_append]
    rfl
  have hxmem : (cf.filename, cf.status) ∈
      files.map (fun e => (e.filename, e.status)) :=
    List.mem_map_of_mem _ hmem
  have hum : update_matches
      ((files ++ [cf]).map (fun e => (e.filename, e.status))) r [] =
      update_matches (files.map (fun e => (e.filename, e.status))) r [] := by
    rw [hmap]
    exact update_matches_duplicate hxmem
  have hmdp : matched_default_patterns
      ((files ++ [cf]).map (fun e => (e.filename, e.status))) dps fn =
      matched_default_patterns
        (files.map (fun e => (e.filename, e.status))) dps fn := by
    unfold matched_default_patterns
    apply List.filter_congr
    intro p _
    rw [hmap, List.any_append]
    cases hcp : fn cf.filename p with
    | true =>
      have hl : (files.map (fun e => (e.filename, e.status))).any
          (fun c => fn c.1 p) = true :=
        List.any_eq_true.mpr ⟨(cf.filename, cf.status), hxmem, hcp⟩
      rw [hl]
      rfl
    | false =>
      have hone : ([(cf.filename, cf.status)] :
          List (String × String)).any (fun c => fn c.1 p) = false := by
        simp [List.any_cons, hcp]
      rw [hone, Bool.or_false]
  have hmg : merged_matches (files ++ [cf]) r defaults dps walk fn =
      merged_matches files r defaults dps walk fn := by
    simp only [merged_matches]
    rw [hum, hmdp]
  unfold generate_matrix
  rw [hmg]

/-- C10 witness at a concrete input. -/
theorem claim_C10_witness :
    generate_matrix ([⟨"clusters/a", "modified"⟩] ++ [⟨"clusters/a", "modified"⟩])
      clustersRegex false [] [] (fun _ _ => false) =
      generate_matrix [⟨"clusters/a", "modified"⟩] clustersRegex false [] []
        (fun _ _ => false) :=
  claim_C10_duplicates_irrelevant (List.mem_cons_self _ _)

/-- C5: matrix generation is deterministic and order-insensitive — input
file lists that are permutations of each other (with all other
parameters identical) produce the same matrix; and the shared
module-level default `old_matches` dictionary of `update_matches` is
always left empty, so no state is carried between invocations and
re-running on the same inputs reproduces the same sorted output. -/
theorem claim_C5_order_insensitivity {files files' : List ChangedFile}
    {r : Regex} {defaults : Bool} {dps walk : List String}
    {fn : String → String → Bool} (hperm : files.Perm files') :
    generate_matrix files r defaults dps walk fn =
      generate_matrix files' r defaults dps walk fn ∧
    (∀ (l : List (String × String)) (m rem : MatchMap),
      update_matches l r [] = .ok (m, rem) → rem = []) := by
  constructor
  · have hpc : (files.map (fun e => (e.filename, e.status))).Perm
        (files'.map (fun e => (e.filename, e.status))) := hperm.map _
    have hum := update_matches_perm (r := r) hpc
    have hmdp : matched_default_patterns
        (files.map (fun e => (e.filename, e.status))) dps fn =
        matched_default_patterns
          (files'.map (fun e => (e.filename, e.status))) dps fn := by
      unfold matched_default_patterns
      apply List.filter_congr
      intro p _
      exact any_perm hpc _
    have hmg : merged_matches files r defaults dps walk fn =
        merged_matches files' r defaults dps walk fn := by
      simp only [merged_matches]
      rw [hum, hmdp]
    unfold generate_matrix
    rw [hmg]
  · intro l m rem h
    exact update_matches_default_state h

/-- C5 witness at a concrete pair of permuted inputs. -/
theorem claim_C5_witness :
    (generate_matrix [⟨"clusters/a", "modified"⟩, ⟨"clusters/b", "removed"⟩]
        clustersRegex false [] [] (fun _ _ => false) =
      generate_matrix [⟨"clusters/b", "removed"⟩, ⟨"clusters/a", "modified"⟩]
        clustersRegex false [] [] (fun _ _ => false)) ∧
    (∀ (l : List (String × String)) (m rem : MatchMap),
      update_matches l clustersRegex [] = .ok (m, rem) → rem = []) :=
  claim_C5_order_insensitivity
    (List.Perm.swap (⟨"clusters/b", "removed"⟩ : ChangedFile)
      (⟨"clusters/a", "modified"⟩ : ChangedFile) [])

/-- C6 witness at a concrete input with two distinct keys. -/
theorem claim_C6_witness :
    ([[("environment", some "live"), ("reason", some "modified")],
      [("environment", some "staging"),
        ("reason", some "modified")]] : List Row).Pairwise
      (fun a b => nonReasonFields a ≠ nonReasonFields b) :=
  @claim_C6_key_uniqueness
    [⟨"staging/app", "modified"⟩, ⟨"live/app", "modified"⟩]
    wordSlashRegex false [] [] (fun _ _ => false)
    [[("environment", some "live"), ("reason", some "modified")],
      [("environment", some "staging"), ("reason", some "modified")]] rfl

/-- C7 witness at a concrete input and row for the pattern
`clusters/.*`. -/
theorem claim_C7_witness :
    ∃ fname rs, ([("path", some "clusters/a"), ("reason", some "modified")]
        : Row) = [("path", some fname), ("reason", some rs)] ∧
      (clustersRegex fname).isSome = true ∧
      fname ∈ ([⟨"clusters/a", "modified"⟩] : List ChangedFile).map
        (fun e => e.filename) ++ ([] : List String) :=
  @claim_C7_no_group_rows [⟨"clusters/a", "modified"⟩] clustersRegex
    false [] [] (fun _ _ => false)
    [[("path", some "clusters/a"), ("reason", some "modified")]]
    (fun s gd h => by
      unfold clustersRegex at h
      cases hs : stripLit "clusters/".data s.data with
      | some rest =>
        rw [hs] at h
        injection h with h
        exact h.symm
      | none =>
        rw [hs] at h
        cases h)
    rfl
    [("path", some "clusters/a"), ("reason", some "modified")]
    (List.mem_cons_self _ _)
